import Mathlib

/-!
# Verification of the outlines-core regex-to-token-index pipeline

Shallow embedding of the Rust sources of `outlines-core` (files
`src/regex.rs`, `src/index.rs`, `src/interegular/fsm.rs`,
`src/interegular/patterns.rs`, `src/interegular/simple_parser.rs`,
`src/json_schema/parsing.rs`, `src/vocabulary/processor.rs`) and proofs
about the spec claims.

Conventions used throughout:
* Rust `u32`/`usize` values that are only compared and stored are
  modelled as `Nat` (no arithmetic that could overflow occurs in the
  modelled code paths).
* Rust `HashMap`s are modelled as association lists with first-match
  lookup (`List.lookup`); construction sites that overwrite entries are
  modelled by an explicit overwrite (filter + append).
* Rust `HashSet` iteration order is unspecified; the index construction
  loop is therefore parameterised by an `IterOrder` oracle choosing
  which pending state to pick and how to order a scan-result set.  The
  default oracle (`defaultOrder`) picks the first pending state and
  keeps scan results in vocabulary order, which is one legal execution.
* Rust strings are modelled as `List Char` (all modelled call sites are
  either char-level Rust loops or ASCII data).
-/

/-! ## `src/regex.rs` -/

/-- Lookup of a symbol in `alphabet_symbol_mapping`, defaulting to
`alphabet_anything_value` (`unwrap_or(&alphabet_anything_value)`). -/
def alphabet_lookup (m : List (List Char × Nat)) (anything : Nat) (sym : List Char) : Nat :=
  match List.lookup sym m with
  | some k => k
  | none => anything

/-- Loop body of `walk_fsm_internal`: remaining keys, current state,
accumulated `accepted_states`, number of consumed keys `i`, and
`last_final_idx`. -/
def walk_fsm_go (trans : List ((Nat × Nat) × Nat)) (finals : List Nat) (full_match : Bool) :
    List Nat → Nat → List Nat → Nat → Nat → List Nat
  | [], _, acc, i, lf => if full_match ∧ lf ≠ i then [] else acc
  | k :: ks, s, acc, i, lf =>
    match List.lookup (s, k) trans with
    | some ns =>
        walk_fsm_go trans finals full_match ks ns (acc ++ [ns]) (i + 1)
          (if ns ∈ finals then i + 1 else lf)
    | none => if ¬full_match ∧ 0 < lf then acc.take lf else []

/-- `walk_fsm_internal` from `src/regex.rs` (the `_fsm_initial` argument is
unused in the source and omitted). -/
def walk_fsm_internal (trans : List ((Nat × Nat) × Nat)) (finals : List Nat)
    (keys : List Nat) (start : Nat) (full_match : Bool) : List Nat :=
  walk_fsm_go trans finals full_match keys start [] 0 0

/-- `get_token_transition_keys_internal` from `src/regex.rs`: a NUL byte
that is not the last character starts a three-character composite symbol
when at least two characters follow it. -/
def get_token_transition_keys_internal (m : List (List Char × Nat)) (anything : Nat) :
    List Char → List Nat
  | [] => []
  | [c] => [alphabet_lookup m anything [c]]
  | [c, c1] =>
      alphabet_lookup m anything [c] :: get_token_transition_keys_internal m anything [c1]
  | c :: c1 :: c2 :: rest2 =>
    if c = Char.ofNat 0 then
      alphabet_lookup m anything [c, c1, c2] ::
        get_token_transition_keys_internal m anything rest2
    else
      alphabet_lookup m anything [c] ::
        get_token_transition_keys_internal m anything (c1 :: c2 :: rest2)

/-- `get_vocabulary_transition_keys_internal` from `src/regex.rs`. -/
def get_vocabulary_transition_keys_internal (m : List (List Char × Nat)) (anything : Nat)
    (vocab : List (List Char × List Nat)) (frozen : List (List Char)) : List (List Nat) :=
  vocab.map (fun p =>
    if p.1 ∈ frozen then [alphabet_lookup m anything p.1]
    else get_token_transition_keys_internal m anything p.1)

/-- `state_scan_tokens_internal` from `src/regex.rs`.  The Rust function
returns a `HashSet<(u32, u32)>`; we return the corresponding list of
pairs (possibly with duplicates, which is irrelevant for membership and
for the map construction that consumes it). -/
def state_scan_tokens_internal (trans : List ((Nat × Nat) × Nat)) (finals : List Nat)
    (vocab : List (List Char × List Nat)) (keysList : List (List Nat)) (start : Nat) :
    List (Nat × Nat) :=
  (vocab.zip keysList).flatMap (fun p =>
    let seq := walk_fsm_internal trans finals p.2 start false
    if seq.length < p.2.length then []
    else p.1.2.map (fun tid => (tid, seq.getLastD 0)))

/-! ## `src/index.rs` -/

/-- `FSMInfo` from `src/index.rs`. -/
structure FSMInfo where
  initial : Nat
  finals : List Nat
  transitions : List ((Nat × Nat) × Nat)
  alphabet_anything_value : Nat
  alphabet_symbol_mapping : List (List Char × Nat)

/-- Insert `(s, tid) ↦ e` into the flat triple view of the nested map
`states_to_token_subsets`; any previous binding of `(s, tid)` is
overwritten, as `HashMap::insert` does. -/
def insertTriple (es : List (Nat × Nat × Nat)) (s tid e : Nat) : List (Nat × Nat × Nat) :=
  es.filter (fun t => ¬(t.1 = s ∧ t.2.1 = tid)) ++ [(s, tid, e)]

/-- Mutable state of the `Index::new` worklist loop: `next_states`,
`seen` and the edge map (as triples `(state, token_id, next_state)`). -/
structure BuildConfig where
  pending : List Nat
  seen : List Nat
  edges : List (Nat × Nat × Nat)

/-- Iteration-order oracle standing for the unspecified `HashSet`
iteration orders in `Index::new`: `pick` chooses which pending state the
`next_states.iter().next()` call yields (as an index into the pending
list, taken modulo its length), and `reorder` gives the order in which
the scan-result set for a state is iterated. -/
structure IterOrder where
  pick : List Nat → Nat
  reorder : Nat → List (Nat × Nat) → List (Nat × Nat)

/-- The default order: pick the first pending state, keep scan results
in vocabulary order. -/
def defaultOrder : IterOrder := ⟨fun _ => 0, fun _ l => l⟩

/-- The pending state the oracle picks (`next_states.iter().next()`). -/
def step_pick (O : IterOrder) (pending : List Nat) : Nat :=
  pending.getD (O.pick pending % pending.length) 0

/-- The `inner_map.insert(*token_id, *end_state)` half of the scan-result
loop of `Index::new`, on the flat triple view. -/
def scan_insert_edges (s : Nat) (pairs : List (Nat × Nat)) (edges : List (Nat × Nat × Nat)) :
    List (Nat × Nat × Nat) :=
  pairs.foldl (fun acc p => insertTriple acc s p.1 p.2) edges

/-- The `if !seen.contains(end_state) { next_states.insert(*end_state) }`
half of the scan-result loop of `Index::new` (a `HashSet` insert is a
no-op on an element already pending). -/
def scan_insert_pending (seen : List Nat) (pairs : List (Nat × Nat)) (pending : List Nat) :
    List Nat :=
  pairs.foldl (fun p q => if q.2 ∈ seen ∨ q.2 ∈ p then p else p ++ [q.2]) pending

/-- One iteration of the `while let Some(start_state)` loop of
`Index::new`. -/
def run_step (fsm : FSMInfo) (vocab : List (List Char × List Nat))
    (keysList : List (List Nat)) (eos : Nat) (O : IterOrder) (cfg : BuildConfig) :
    BuildConfig :=
  match cfg.pending with
  | [] => cfg
  | _ :: _ =>
    let s := step_pick O cfg.pending
    let pairs := O.reorder s
      (state_scan_tokens_internal fsm.transitions fsm.finals vocab keysList s)
    let edges1 := scan_insert_edges s pairs cfg.edges
    let edges2 := if s ∈ fsm.finals ∧ pairs ≠ [] then insertTriple edges1 s eos s else edges1
    ⟨scan_insert_pending cfg.seen pairs (cfg.pending.erase s),
     if s ∈ cfg.seen then cfg.seen else cfg.seen ++ [s],
     edges2⟩

/-- The worklist loop of `Index::new`, with explicit fuel (the loop
terminates; `fuel_bound` below always suffices). -/
def index_loop (fsm : FSMInfo) (vocab : List (List Char × List Nat))
    (keysList : List (List Nat)) (eos : Nat) (O : IterOrder) :
    Nat → BuildConfig → BuildConfig
  | 0, cfg => cfg
  | n + 1, cfg =>
    match cfg.pending with
    | [] => cfg
    | _ :: _ => index_loop fsm vocab keysList eos O n (run_step fsm vocab keysList eos O cfg)

/-- States that can ever enter the worklist: the initial state and every
transition target. -/
def stateUniverse (fsm : FSMInfo) : List Nat :=
  fsm.initial :: fsm.transitions.map (fun t => t.2)

/-- A fuel amount sufficient for `index_loop` to drain its worklist. -/
def fuel_bound (fsm : FSMInfo) : Nat :=
  (stateUniverse fsm).length * ((stateUniverse fsm).length + 1) + 2

/-- Run the construction loop of `Index::new` from its initial
configuration. -/
def build_config (fsm : FSMInfo) (vocab : List (List Char × List Nat))
    (frozen : List (List Char)) (eos : Nat) (O : IterOrder) : BuildConfig :=
  let keysList := get_vocabulary_transition_keys_internal
    fsm.alphabet_symbol_mapping fsm.alphabet_anything_value vocab frozen
  index_loop fsm vocab keysList eos O (fuel_bound fsm) ⟨[fsm.initial], [], []⟩

/-- The edge map built by `Index::new` (as a set of triples), before the
validity check. -/
def built_edges (fsm : FSMInfo) (vocab : List (List Char × List Nat))
    (frozen : List (List Char)) (eos : Nat) (O : IterOrder) : List (Nat × Nat × Nat) :=
  (build_config fsm vocab frozen eos O).edges

/-- The `Index` struct from `src/index.rs`. -/
structure Index where
  initial : Nat
  finals : List Nat
  states_to_token_subsets : List (Nat × Nat × Nat)
  eos_token_id : Nat

/-- The error type relevant to `Index::new` (`Error::IndexError`). -/
inductive IndexError where
  | indexError
deriving DecidableEq

/-- `Index::new` from `src/index.rs`: run the worklist loop, then
succeed iff some edge target is a DFA final state. -/
def index_new (fsm : FSMInfo) (vocab : List (List Char × List Nat))
    (frozen : List (List Char)) (eos : Nat) (O : IterOrder) : Except IndexError Index :=
  let edges := built_edges fsm vocab frozen eos O
  if edges.any (fun t => fsm.finals.contains t.2.2) then
    .ok ⟨fsm.initial, fsm.finals, edges, eos⟩
  else
    .error .indexError

/-! ## Canonical description of the built index -/

/-- The scan-result set of a state, with the per-token key sequences
computed as `Index::new` computes them. -/
def scanOf (fsm : FSMInfo) (vocab : List (List Char × List Nat))
    (frozen : List (List Char)) (s : Nat) : List (Nat × Nat) :=
  state_scan_tokens_internal fsm.transitions fsm.finals vocab
    (get_vocabulary_transition_keys_internal fsm.alphabet_symbol_mapping
      fsm.alphabet_anything_value vocab frozen) s

/-- States reachable from the initial state by following scan edges:
exactly the states the worklist loop processes. -/
inductive ReachState (fsm : FSMInfo) (vocab : List (List Char × List Nat))
    (frozen : List (List Char)) : Nat → Prop where
  | init : ReachState fsm vocab frozen fsm.initial
  | step {s tid e : Nat} : ReachState fsm vocab frozen s →
      (tid, e) ∈ scanOf fsm vocab frozen s → ReachState fsm vocab frozen e

/-- The entry the finished edge map holds at `(s, tid)`: a scan pair of
`s`, except that on a final state with a non-empty scan the
`eos_token_id` entry is the self-loop. -/
@[reducible] def entryP (fsm : FSMInfo) (vocab : List (List Char × List Nat))
    (frozen : List (List Char)) (eos : Nat) (s tid e : Nat) : Prop :=
  ((tid, e) ∈ scanOf fsm vocab frozen s ∧ ¬(tid = eos ∧ s ∈ fsm.finals)) ∨
    (s ∈ fsm.finals ∧ scanOf fsm vocab frozen s ≠ [] ∧ tid = eos ∧ e = s)

/-- Value of the last pair with first component `b` in a list of scan
results: the binding that survives iterated `HashMap::insert`. -/
def lastAssoc : List (Nat × Nat) → Nat → Option Nat
  | [], _ => none
  | p :: rest, b =>
    match lastAssoc rest b with
    | some v => some v
    | none => if p.1 = b then some p.2 else none

/-- No vocabulary token is the empty string.  (On an empty token,
`state_scan_tokens` in the Rust source panics on
`state_seq.last().unwrap()`; all theorems about `Index::new` assume
panic-freedom through this hypothesis.) -/
@[reducible] def VocabNonempty (vocab : List (List Char × List Nat)) : Prop :=
  ∀ p ∈ vocab, p.1 ≠ []

/-- The oracle's reorderings of scan-result sets are permutations, as
iterations of a Rust `HashSet` are.  (Only the states that can enter the
worklist matter.) -/
@[reducible] def OrderValid (fsm : FSMInfo) (vocab : List (List Char × List Nat))
    (frozen : List (List Char)) (O : IterOrder) : Prop :=
  ∀ s ∈ stateUniverse fsm,
    (O.reorder s (scanOf fsm vocab frozen s)).Perm (scanOf fsm vocab frozen s)

/-- From any one state, all scan results agree on the end state of a
given token id (no token id is shared by two tokens that walk to
different states). -/
@[reducible] def ScanFunctional (fsm : FSMInfo) (vocab : List (List Char × List Nat))
    (frozen : List (List Char)) : Prop :=
  ∀ s ∈ stateUniverse fsm, ∀ p ∈ scanOf fsm vocab frozen s, ∀ q ∈ scanOf fsm vocab frozen s,
    p.1 = q.1 → p.2 = q.2

/-- Invariant of the `Index::new` worklist loop. -/
structure LoopInv (fsm : FSMInfo) (vocab : List (List Char × List Nat))
    (frozen : List (List Char)) (eos : Nat) (cfg : BuildConfig) : Prop where
  pend_nodup : cfg.pending.Nodup
  pend_univ : ∀ s ∈ cfg.pending, s ∈ stateUniverse fsm
  seen_univ : ∀ s ∈ cfg.seen, s ∈ stateUniverse fsm
  pend_reach : ∀ s ∈ cfg.pending, ReachState fsm vocab frozen s
  seen_reach : ∀ s ∈ cfg.seen, ReachState fsm vocab frozen s
  closed : ∀ s ∈ cfg.seen, ∀ p ∈ scanOf fsm vocab frozen s, p.2 ∈ cfg.seen ∨ p.2 ∈ cfg.pending
  init_in : fsm.initial ∈ cfg.seen ∨ fsm.initial ∈ cfg.pending
  edges_char : ∀ a b c : Nat, (a, b, c) ∈ cfg.edges ↔
    a ∈ cfg.seen ∧ entryP fsm vocab frozen eos a b c

/-- Decreasing measure of the worklist loop. -/
def loopMeasure (fsm : FSMInfo) (cfg : BuildConfig) : Nat :=
  ((stateUniverse fsm).toFinset \ cfg.seen.toFinset).card * ((stateUniverse fsm).length + 1) +
    cfg.pending.length

/-! ### Concrete instances used by the claims about the index builder -/

/-- Spec scenario 1: DFA of the regex `"a"` over the alphabet
`{'a' ↦ 1, anything_else ↦ 0}`. -/
def ex1fsm : FSMInfo := ⟨0, [1], [((0, 1), 1)], 0, [(['a'], 1)]⟩

/-- Spec scenario 1 vocabulary `{"a": [7], "b": [8]}`. -/
def ex1vocab : List (List Char × List Nat) := [(['a'], [7]), (['b'], [8])]

/-- DFA of the regex `"[a-d]+"`: states `{0,1,2}`, finals `{1,2}`, all
of `a…d` sharing transition key 1. -/
def ex3fsm : FSMInfo :=
  ⟨0, [1, 2], [((0, 1), 1), ((1, 1), 2), ((2, 1), 2)], 0,
    [(['a'], 1), (['b'], 1), (['c'], 1), (['d'], 1)]⟩

/-- Vocabulary `{"a": [1], "abc": [2], "z": [3]}`. -/
def ex3vocab : List (List Char × List Nat) :=
  [(['a'], [1]), (['a', 'b', 'c'], [2]), (['z'], [3])]

/-- A DFA with two final states reachable on distinct symbols, used to
exhibit order dependence. -/
def ex9fsm : FSMInfo := ⟨0, [1, 2], [((0, 1), 1), ((0, 2), 2)], 0, [(['a'], 1), (['b'], 2)]⟩

/-- A vocabulary in which two distinct tokens share token id 5. -/
def ex9vocab : List (List Char × List Nat) := [(['a'], [5]), (['b'], [5])]

/-- An iteration order that visits every scan-result set backwards. -/
def revOrder : IterOrder := ⟨fun _ => 0, fun _ l => l.reverse⟩

/-! ## `src/interegular/fsm.rs` -/

/-- `TransitionKey` from `src/interegular/fsm.rs`. -/
inductive TKey where
  | symbol (n : Nat)
  | anythingElse
deriving DecidableEq

/-- `Alphabet<char>` from `src/interegular/fsm.rs` (the `by_transition`
index is recovered from `symbol_mapping`). -/
structure CAlphabet where
  symbol_mapping : List (Char × TKey)

/-- `Alphabet::get`: unrecorded symbols map to `anything_else`. -/
def CAlphabet.get (a : CAlphabet) (c : Char) : TKey :=
  match List.lookup c a.symbol_mapping with
  | some k => k
  | none => TKey.anythingElse

/-- The distinct transition keys of the alphabet
(`alphabet.by_transition.keys()`), in first-occurrence order. -/
def CAlphabet.transitionKeys (a : CAlphabet) : List TKey :=
  (a.symbol_mapping.map (fun p => p.2)).dedup

/-- `Fsm<char>` from `src/interegular/fsm.rs`: states and keys are
`TransitionKey`s, `map` is the nested transition map. -/
structure CFsm where
  alphabet : CAlphabet
  states : List TKey
  initial : TKey
  finals : List TKey
  map : List (TKey × List (TKey × TKey))

/-- `Fsm::accepts` from `src/interegular/fsm.rs`. -/
def CFsm.acceptsFrom (f : CFsm) : List Char → TKey → Bool
  | [], s => decide (s ∈ f.finals)
  | c :: rest, s =>
    match List.lookup s f.map with
    | some tmap =>
      match List.lookup (f.alphabet.get c) tmap with
      | some ns => f.acceptsFrom rest ns
      | none => false
    | none => false

/-- `Fsm::accepts` run from the initial state. -/
def CFsm.accepts (f : CFsm) (input : List Char) : Bool :=
  f.acceptsFrom input f.initial

/-- Inner key loop of `crawl`: follow each alphabet key from the
composite `st`, recording transitions and appending freshly discovered
composites (`states.iter().position` compares composites with `ceq`,
the `HashSet` equality of the Rust composites). -/
def crawl_keys {C : Type} (ceq : C → C → Bool) (follow : C → TKey → Option C) (st : C) :
    List TKey → List C → List (TKey × TKey) → List C × List (TKey × TKey)
  | [], states, row => (states, row)
  | k :: ks, states, row =>
    match follow st k with
    | some next =>
      match states.findIdx? (fun s2 => ceq s2 next) with
      | some j => crawl_keys ceq follow st ks states (row ++ [(k, TKey.symbol j)])
      | none =>
        crawl_keys ceq follow st ks (states ++ [next])
          (row ++ [(k, TKey.symbol states.length)])
    | none => crawl_keys ceq follow st ks states row

/-- Main loop of `crawl` from `src/interegular/fsm.rs`, iterating `i`
over the growing composite-state list (fuel-bounded; the concrete
instances below terminate well within the supplied fuel). -/
def crawl_go {C : Type} (keys : List TKey) (finalFn : C → Bool) (ceq : C → C → Bool)
    (follow : C → TKey → Option C) :
    Nat → List C → Nat → List TKey → List (TKey × List (TKey × TKey)) →
    List C × List TKey × List (TKey × List (TKey × TKey))
  | 0, states, _, finals, map => (states, finals, map)
  | fuel + 1, states, i, finals, map =>
    if h : i < states.length then
      let st := states.get ⟨i, h⟩
      let finals1 := if finalFn st then finals ++ [TKey.symbol i] else finals
      let (states2, row) := crawl_keys ceq follow st keys states []
      crawl_go keys finalFn ceq follow fuel states2 (i + 1) finals1
        (map ++ [(TKey.symbol i, row)])
    else (states, finals, map)

/-- `crawl` from `src/interegular/fsm.rs`. -/
def crawl {C : Type} (alphabet : CAlphabet) (initial : C) (finalFn : C → Bool)
    (ceq : C → C → Bool) (follow : C → TKey → Option C) (fuel : Nat) : CFsm :=
  let r := crawl_go alphabet.transitionKeys finalFn ceq follow fuel [initial] 0 [] []
  ⟨alphabet, (List.range r.1.length).map TKey.symbol, TKey.symbol 0, r.2.1, r.2.2⟩

/-- Composite states of `everythingbut` are `HashSet<(TransitionKey, usize)>`
values; composite equality is set equality. -/
def compSetEq (l1 l2 : List (TKey × Nat)) : Bool :=
  l1.all (fun x => x ∈ l2) && l2.all (fun x => x ∈ l1)

/-- The `follow` closure of `Fsm::everythingbut`: transitions are
followed only from a substate equal to `self.initial` (verbatim from
the source). -/
def everythingbut_follow (f : CFsm) (cur : List (TKey × Nat)) (t : TKey) :
    Option (List (TKey × Nat)) :=
  let next := cur.foldl (fun acc p =>
    if p.1 = f.initial then
      match List.lookup p.1 f.map with
      | some row =>
        match List.lookup t row with
        | some ns => if (ns, p.2) ∈ acc then acc else acc ++ [(ns, p.2)]
        | none => acc
      | none => acc
    else acc) []
  if next = [] then none else some next

/-- The `final_fn` closure of `Fsm::everythingbut`: a composite is
accepting unless it contains a substate equal to `self.initial` that is
final (verbatim from the source). -/
def everythingbut_final (f : CFsm) (st : List (TKey × Nat)) : Bool :=
  !(st.any (fun p => p.1 = f.initial && p.1 ∈ f.finals))

/-- `Fsm::everythingbut` from `src/interegular/fsm.rs`. -/
def CFsm.everythingbut (f : CFsm) (fuel : Nat) : CFsm :=
  crawl f.alphabet [(f.initial, 0)] (everythingbut_final f) compSetEq
    (everythingbut_follow f) fuel

/-- The FSM of `create_simple_fsm` in the tests of
`src/interegular/fsm.rs`: accepts exactly `a b*`. -/
def simpleCFsm : CFsm :=
  ⟨⟨[('a', TKey.symbol 0), ('b', TKey.symbol 1)]⟩,
   [TKey.symbol 0, TKey.symbol 1],
   TKey.symbol 0,
   [TKey.symbol 1],
   [(TKey.symbol 0, [(TKey.symbol 0, TKey.symbol 1)]),
    (TKey.symbol 1, [(TKey.symbol 1, TKey.symbol 1)])]⟩

/-! ## `src/interegular/patterns.rs`: `RegexElement::to_fsm`, `CharGroup` arm -/

/-- The alphabet type used by `RegexElement::to_fsm`
(`symbol_mapping: BTreeMap<char, usize>`); `get` falls back to the
reserved key 0 of `'\0'`/anything-else for unrecorded symbols. -/
structure PAlphabet where
  symbol_mapping : List (Char × Nat)

/-- Symbol lookup in a `PAlphabet`. -/
def PAlphabet.get (a : PAlphabet) (c : Char) : Nat :=
  match List.lookup c a.symbol_mapping with
  | some k => k
  | none => 0

/-- The FSM type produced by `RegexElement::to_fsm` (usize states and
keys, `map: BTreeMap<usize, BTreeMap<usize, usize>>`). -/
structure PFsm where
  alphabet : PAlphabet
  states : List Nat
  initial : Nat
  finals : List Nat
  map : List (Nat × List (Nat × Nat))

/-- `BTreeMap::insert` on an association list: any previous binding of
the key is replaced. -/
def btreeInsert {α : Type} (m : List (Nat × α)) (k : Nat) (v : α) : List (Nat × α) :=
  m.filter (fun p => p.1 ≠ k) ++ [(k, v)]

/-- The transition map built by the non-inverted `CharGroup` arm of
`RegexElement::to_fsm`: for each character (in ascending `BTreeSet`
order) a fresh inner map `m = {alphabet.get(c) ↦ 1}` is created and
`mapping.insert(0, m)` is called, replacing the previous inner map. -/
def chargroup_to_fsm_map (alphabet : PAlphabet) (chars : List Char) :
    List (Nat × List (Nat × Nat)) :=
  chars.foldl (fun mapping c => btreeInsert mapping 0 [(alphabet.get c, 1)]) []

/-- The non-inverted `CharGroup` arm of `RegexElement::to_fsm`
(`states = (0..=1)`, `finals = (1..=1)`). -/
def chargroup_to_fsm (alphabet : PAlphabet) (chars : List Char) : PFsm :=
  ⟨alphabet, [0, 1], 0, [1], chargroup_to_fsm_map alphabet chars⟩

/-- Transition lookup in a `PFsm`: the edge target of `(state, key)` if
present. -/
def PFsm.transition (f : PFsm) (s k : Nat) : Option Nat :=
  match List.lookup s f.map with
  | some row => List.lookup k row
  | none => none

/-! ## `src/interegular/patterns.rs` + `src/interegular/simple_parser.rs`:
the regex parser

The parser state carries the cursor and the indices at which an expected
token failed to match (the expected-token *strings* of the Rust
`NoMatch` diagnostics are not modelled: they never influence control
flow, only error payload text).  Rust panics (`unimplemented!`,
`unwrap`, `assert!`) are modelled by the distinguished outcome
`PErr.abort`; `PErr.fuelOut` is an artefact of the fuel-bounded
recursion and is never produced at the fuel used by `parse_pattern`.
Indices are character indices (all data in the claims is ASCII, where
Rust's byte indices coincide). -/

/-- `AnchorType` from `src/interegular/patterns.rs`. -/
inductive AnchorType where
  | startOfLine
  | endOfLine
  | wordBoundary
  | notWordBoundary
deriving DecidableEq

/-- `Flag` from `src/interegular/patterns.rs`. -/
inductive RFlag where
  | caseInsensitive
  | multiline
  | dotMatchesNewline
  | unicode
deriving DecidableEq

/-- `RegexElement` from `src/interegular/patterns.rs`; `chars` of a
`CharGroup` is a `BTreeSet<char>`, modelled as a sorted duplicate-free
list. -/
inductive RegexElement where
  | Literal (c : Char)
  | CharGroup (chars : List Char) (inverted : Bool)
  | Repeated (element : RegexElement) (min : Nat) (max : Option Nat)
  | Concatenation (parts : List RegexElement)
  | Alternation (options : List RegexElement)
  | Capture (inner : RegexElement)
  | Group (inner : RegexElement)
  | Anchor (kind : AnchorType)
  | Flag (element : RegexElement) (added : List RFlag) (removed : List RFlag)

/-- Insert a character into a sorted duplicate-free list
(`BTreeSet<char>` insertion). -/
def sortedInsert (c : Char) : List Char → List Char
  | [] => [c]
  | x :: xs => if c < x then c :: x :: xs else if c = x then x :: xs else x :: sortedInsert c xs

/-- `collect::<BTreeSet<char>>()`. -/
def mkCharSet (l : List Char) : List Char :=
  l.foldl (fun acc c => sortedInsert c acc) []

/-- `BTreeSet::difference` collected into a set. -/
def charSetDiff (a b : List Char) : List Char :=
  a.filter (fun c => c ∉ b)

/-- `Flag::from<usize>` (panics on values above 3; the modelled parser
never constructs flags). -/
def flagOfNat : Nat → RFlag
  | 0 => .caseInsensitive
  | 1 => .multiline
  | 2 => .dotMatchesNewline
  | _ => .unicode

/-- Parser state: `SimpleParser.index`, the failure indices of
`SimpleParser.expected`, and `ParsePattern.flags`. -/
structure PPState where
  index : Nat
  expected : List Nat
  flags : Option (List Nat)
deriving DecidableEq

/-- Outcomes of parser functions. -/
inductive PErr where
  | noMatch (index : Nat)
  | abort
  | fuelOut
deriving DecidableEq

/-- `SPECIAL_CHARS_STANDARD` from `src/interegular/patterns.rs`. -/
def special_chars_standard : List (List Char) :=
  [['+'], ['?'], ['*'], ['.'], ['$'], ['^'], ['\\'], ['('], [')'], ['['], ['|']]

/-- `SPECIAL_CHARS_INNER` from `src/interegular/patterns.rs`. -/
def special_chars_inner : List (List Char) := [['\\'], [']']]

/-- `SimpleParser::peek_static`. -/
def sp_peek_static (data pat : List Char) (st : PPState) : Bool × PPState :=
  if pat.isPrefixOf (data.drop st.index) then (true, st)
  else (false, { st with expected := st.expected ++ [st.index] })

/-- `SimpleParser::static_b` (the compared slice is capped at the end of
the data, so a truncated slice simply fails to match). -/
def sp_static_b (data pat : List Char) (st : PPState) : Bool × PPState :=
  if (data.drop st.index).take pat.length = pat then
    (true, { st with index := st.index + pat.length })
  else (false, { st with expected := st.expected ++ [st.index] })

/-- `SimpleParser::static_match`. -/
def sp_static_match (data pat : List Char) (st : PPState) : Except PErr Unit × PPState :=
  if (data.drop st.index).take pat.length = pat then
    (.ok (), { st with index := st.index + pat.length })
  else (.error (.noMatch st.index), { st with expected := st.expected ++ [st.index] })

/-- `SimpleParser::any`. -/
def sp_any (data : List Char) (len : Nat) (st : PPState) :
    Except PErr (List Char) × PPState :=
  if st.index + len ≤ data.length then
    (.ok ((data.drop st.index).take len), { st with index := st.index + len })
  else (.error (.noMatch st.index), { st with expected := st.expected ++ [st.index] })

/-- `SimpleParser::any_but`. -/
def sp_any_but (data : List Char) (strs : List (List Char)) (len : Nat) (st : PPState) :
    Except PErr (List Char) × PPState :=
  if st.index + len ≤ data.length then
    let res := (data.drop st.index).take len
    if res ∈ strs then
      (.error (.noMatch st.index), { st with expected := st.expected ++ [st.index] })
    else (.ok res, { st with index := st.index + len })
  else (.error (.noMatch st.index), { st with expected := st.expected ++ [st.index] })

/-- `SimpleParser::anyof_b`. -/
def sp_anyof_b (data : List Char) (strs : List (List Char)) (st : PPState) : Bool × PPState :=
  match strs with
  | [] => (false, st)
  | sdat :: rest =>
    let r := sp_static_b data sdat st
    if r.1 then (true, r.2) else sp_anyof_b data rest r.2

/-- `SimpleParser::anyof`. -/
def sp_anyof (data : List Char) (strs : List (List Char)) (st : PPState) :
    Except PErr (List Char) × PPState :=
  match strs with
  | [] => (.error (.noMatch st.index), st)
  | sdat :: rest =>
    let r := sp_static_b data sdat st
    if r.1 then (.ok sdat, r.2) else sp_anyof data rest r.2

/-- Required phase of `SimpleParser::multiple` (`min` characters of the
allowed set must be present). -/
def sp_multiple_req (data chars : List Char) : Nat → PPState → List Char →
    Except PErr (List Char) × PPState
  | 0, st, acc => (.ok acc, st)
  | n + 1, st, acc =>
    match (data.drop st.index).head? with
    | some c =>
      if c ∈ chars then
        sp_multiple_req data chars n { st with index := st.index + 1 } (acc ++ [c])
      else (.error (.noMatch st.index), { st with expected := st.expected ++ [st.index] })
    | none => (.error (.noMatch st.index), st)

/-- Greedy extension phase of `SimpleParser::multiple` (bounded by
`max - min`, or by the remaining input when `max` is `None`). -/
def sp_multiple_ext (data chars : List Char) : Nat → PPState → List Char →
    List Char × PPState
  | 0, st, acc => (acc, st)
  | n + 1, st, acc =>
    match (data.drop st.index).head? with
    | some c =>
      if c ∈ chars then
        sp_multiple_ext data chars n { st with index := st.index + 1 } (acc ++ [c])
      else (acc, st)
    | none => (acc, st)

/-- `SimpleParser::multiple`. -/
def sp_multiple (data chars : List Char) (minN : Nat) (maxN : Option Nat) (st : PPState) :
    Except PErr (List Char) × PPState :=
  match sp_multiple_req data chars minN st [] with
  | (.error e, st1) => (.error e, st1)
  | (.ok acc, st1) =>
    let bound := match maxN with
      | some mx => mx - minN
      | none => data.length - st1.index
    let r := sp_multiple_ext data chars bound st1 acc
    (.ok r.1, r.2)

/-- Decimal digits (`"0123456789"`). -/
def decDigits : List Char := "0123456789".toList

/-- Octal digits (`"01234567"`). -/
def octDigits : List Char := "01234567".toList

/-- Hexadecimal digits (`"0123456789abcdefABCDEF"`). -/
def hexDigitChars : List Char := "0123456789abcdefABCDEF".toList

/-- Value of a hexadecimal digit character. -/
def hexVal (c : Char) : Nat :=
  if 97 ≤ c.toNat then c.toNat - 87
  else if 65 ≤ c.toNat then c.toNat - 55
  else c.toNat - 48

/-- `from_str_radix`-style evaluation of a digit string in base `b`. -/
def digitsToNatBase (b : Nat) (l : List Char) : Nat :=
  l.foldl (fun a c => b * a + hexVal c) 0

/-- The 52 ASCII letters as one-character strings (the `any_but` letter
list of `ParsePattern::escaped`). -/
def asciiLetterStrings : List (List Char) :=
  (['a', 'b', 'c', 'd', 'e', 'f', 'g', 'h', 'i', 'j', 'k', 'l', 'm',
    'n', 'o', 'p', 'q', 'r', 's', 't', 'u', 'v', 'w', 'x', 'y', 'z',
    'A', 'B', 'C', 'D', 'E', 'F', 'G', 'H', 'I', 'J', 'K', 'L', 'M',
    'N', 'O', 'P', 'Q', 'R', 'S', 'T', 'U', 'V', 'W', 'X', 'Y', 'Z']).map (fun c => [c])

/-- The `\w` character list of `ParsePattern::escaped`. -/
def wClassChars : List Char :=
  "abcdefghijklmnopqrstuvwxyzABCDEFGHIJKLMNOPQRSTUVWXYZ_0123456789".toList

/-- The whitespace list that `ParsePattern::escaped` uses for `\W`,
`\D`, `\s` and `\S` alike (a quirk of the source). -/
def sClassChars : List Char := ['\n', '\r', '\t', '\x0b', '\x0c', ' ']

/-- The character table of the class escapes in `ParsePattern::escaped`. -/
def escapeClassChars (c : List Char) : List Char :=
  if c = ['w'] then mkCharSet wClassChars
  else if c = ['W'] ∨ c = ['d'] ∨ c = ['D'] ∨ c = ['s'] ∨ c = ['S'] then
    (if c = ['d'] then mkCharSet decDigits else mkCharSet sClassChars)
  else if c = ['a'] then ['\x07']
  else if c = ['b'] then ['\x08']
  else if c = ['f'] then ['\x0c']
  else if c = ['n'] then ['\n']
  else if c = ['r'] then ['\r']
  else if c = ['t'] then ['\t']
  else if c = ['v'] then ['\x0b']
  else []

/-- The helper `is_alphabetic` of `src/interegular/patterns.rs`
(ASCII-faithful; the Rust version is Unicode-aware, which coincides on
the ASCII data of the claims). -/
def is_alphabetic (s : List Char) : Bool :=
  match s.head? with
  | some c => c.isAlpha
  | none => false

/-- `ParsePattern::escaped`. -/
def pp_escaped (data : List Char) (inner : Bool) (st : PPState) :
    Except PErr RegexElement × PPState :=
  let rx := sp_static_b data ['x'] st
  if rx.1 then
    match sp_multiple data hexDigitChars 2 (some 2) rx.2 with
    | (.error e, st2) => (.error e, st2)
    | (.ok n, st2) => (.ok (.CharGroup [Char.ofNat (digitsToNatBase 16 n)] false), st2)
  else
  let r0 := sp_static_b data ['0'] rx.2
  if r0.1 then
    match sp_multiple data octDigits 1 (some 2) r0.2 with
    | (.error e, st2) => (.error e, st2)
    | (.ok n, st2) => (.ok (.CharGroup [Char.ofNat (digitsToNatBase 8 n)] false), st2)
  else
  let ru := sp_anyof_b data [['N'], ['p'], ['P'], ['u'], ['U']] r0.2
  if ru.1 then (.error .abort, ru.2)
  else if ¬inner then
    match sp_multiple data octDigits 3 (some 3) ru.2 with
    | (.ok n, st4) => (.ok (.CharGroup [Char.ofNat (digitsToNatBase 8 n)] false), st4)
    | (.error _, st4) =>
      match sp_multiple data decDigits 1 (some 2) st4 with
      | (.ok _, st5) => (.error .abort, st5)
      | (.error _, st5) =>
        match sp_any_but data asciiLetterStrings 1 st5 with
        | (.error e, st6) => (.error e, st6)
        | (.ok cs, st6) =>
          match cs.head? with
          | none => (.error .abort, st6)
          | some c =>
            if c.isAlpha then (.error (.noMatch st6.index), st6)
            else (.ok (.CharGroup [c] false), st6)
  else
    match sp_multiple data octDigits 1 (some 3) ru.2 with
    | (.ok n, st4) => (.ok (.CharGroup [Char.ofNat (digitsToNatBase 8 n)] false), st4)
    | (.error _, st4) =>
      match sp_anyof data
        [['w'], ['W'], ['d'], ['D'], ['s'], ['S'], ['a'], ['b'], ['f'], ['n'], ['r'], ['t'], ['v']]
        st4 with
      | (.ok c, st5) => (.ok (.CharGroup (escapeClassChars c) false), st5)
      | (.error _, st5) =>
        match sp_any_but data asciiLetterStrings 1 st5 with
        | (.error e, st6) => (.error e, st6)
        | (.ok cs, st6) =>
          if is_alphabetic cs then (.error (.noMatch st6.index), st6)
          else (.ok (.CharGroup (mkCharSet cs) false), st6)

/-- Accumulation loop of `_combine_char_groups` (`None` on a non-
`CharGroup` group, which the source handles by panicking). -/
def combine_char_groups_go : List RegexElement → List Char → List Char →
    Option (List Char × List Char)
  | [], pos, neg => some (pos, neg)
  | .CharGroup cs inv :: rest, pos, neg =>
    if inv then combine_char_groups_go rest pos (neg ++ cs)
    else combine_char_groups_go rest (pos ++ cs) neg
  | _, _, _ => none

/-- `_combine_char_groups` from `src/interegular/patterns.rs`. -/
def combine_char_groups (groups : List RegexElement) (negate : Bool) :
    Except PErr RegexElement :=
  match combine_char_groups_go groups [] [] with
  | none => .error .abort
  | some (pos, neg) =>
    let posS := mkCharSet pos
    let negS := mkCharSet neg
    if negS ≠ [] then .ok (.CharGroup (charSetDiff negS posS) (!negate))
    else .ok (.CharGroup (charSetDiff posS negS) negate)

/-- `(low..=high).collect::<BTreeSet<char>>()`. -/
def charRange (lo hi : Char) : List Char :=
  (List.range (hi.toNat + 1 - lo.toNat)).map (fun i => Char.ofNat (lo.toNat + i))

/-- The range construction at the end of `ParsePattern::chargroup_inner`
(`base?`, the `unwrap`s and the `assert!(low <= high)` are the
error/panic paths of the source). -/
def rangeResult (bres : Except PErr RegexElement) (endCg : RegexElement) (st : PPState) :
    Except PErr RegexElement × PPState :=
  match bres with
  | .error e => (.error e, st)
  | .ok b0 =>
    match b0, endCg with
    | .CharGroup bcs _, .CharGroup ecs _ =>
      match bcs.head?, ecs.head? with
      | some lo, some hi =>
        if lo ≤ hi then (.ok (.CharGroup (charRange lo hi) false), st)
        else (.error .abort, st)
      | _, _ => (.error .abort, st)
    | _, _ => (.error .abort, st)

/-- `ParsePattern::chargroup_inner`. -/
def pp_chargroup_inner (data : List Char) (st : PPState) :
    Except PErr RegexElement × PPState :=
  let rb := sp_static_b data ['\\'] st
  let base : Except PErr RegexElement × PPState :=
    if rb.1 then pp_escaped data true rb.2
    else
      match sp_any_but data special_chars_inner 1 rb.2 with
      | (.ok cs, st2) => (.ok (.CharGroup (mkCharSet cs) false), st2)
      | (.error e, st2) => (.error e, st2)
  match base with
  | (.error .abort, stb) => (.error .abort, stb)
  | (.error .fuelOut, stb) => (.error .fuelOut, stb)
  | (bres, stb) =>
    let rd := sp_static_b data ['-'] stb
    if rd.1 then
      let re := sp_static_b data ['\\'] rd.2
      if re.1 then
        match pp_escaped data true re.2 with
        | (.error e, st4) => (.error e, st4)
        | (.ok endCg, st4) => rangeResult bres endCg st4
      else
        let rp := sp_peek_static data [']'] re.2
        if rp.1 then
          match bres with
          | .error e => (.error e, rp.2)
          | .ok b0 =>
            (combine_char_groups [b0, .CharGroup ['-'] false] false, rp.2)
        else
          match sp_any_but data special_chars_inner 1 rp.2 with
          | (.error e, st5) => (.error e, st5)
          | (.ok cs, st5) => rangeResult bres (.CharGroup (mkCharSet cs) false) st5
    else (bres, rd.2)

/-- The `while let Ok(group) = self.chargroup_inner()` loop of
`ParsePattern::chargroup` (fuel-bounded; the loop consumes input on
every successful iteration). -/
def pp_chargroup_loop (data : List Char) : Nat → List RegexElement → PPState →
    Except PErr (List RegexElement) × PPState
  | 0, _, st => (.error .fuelOut, st)
  | n + 1, acc, st =>
    match pp_chargroup_inner data st with
    | (.ok g, st1) => pp_chargroup_loop data n (acc ++ [g]) st1
    | (.error (.noMatch _), st1) => (.ok acc, st1)
    | (.error e, st1) => (.error e, st1)

/-- `ParsePattern::chargroup`. -/
def pp_chargroup (data : List Char) (st : PPState) : Except PErr RegexElement × PPState :=
  let rn := sp_static_b data ['^'] st
  match pp_chargroup_loop data (data.length + 1) [] rn.2 with
  | (.error e, st2) => (.error e, st2)
  | (.ok groups, st2) =>
    let rm := sp_static_match data [']'] st2
    match groups with
    | [g] =>
      match g with
      | .CharGroup cs inv => (.ok (.CharGroup cs (xor inv rn.1)), rm.2)
      | _ => (.error .abort, rm.2)
    | [] => (.ok (.CharGroup [] rn.1), rm.2)
    | _ => (combine_char_groups groups rn.1, rm.2)

/-- `ParsePattern::number`. -/
def pp_number (data : List Char) (st : PPState) : Except PErr Nat × PPState :=
  match sp_multiple data decDigits 1 none st with
  | (.ok n, st1) => (.ok (digitsToNatBase 10 n), st1)
  | (.error e, st1) => (.error e, st1)

/-- `ParsePattern::repetition`. -/
def pp_repetition (data : List Char) (base : RegexElement) (st : PPState) :
    Except PErr RegexElement × PPState :=
  let r1 := sp_static_b data ['*'] st
  if r1.1 then
    let r := sp_static_b data ['?'] r1.2
    (.ok (.Repeated base 0 none), r.2)
  else
  let r2 := sp_static_b data ['+'] r1.2
  if r2.1 then
    let r := sp_static_b data ['?'] r2.2
    (.ok (.Repeated base 1 none), r.2)
  else
  let r3 := sp_static_b data ['?'] r2.2
  if r3.1 then
    let r := sp_static_b data ['?'] r3.2
    (.ok (.Repeated base 0 (some 1)), r.2)
  else
  let r4 := sp_static_b data ['{'] r3.2
  if r4.1 then
    let rn := pp_number data r4.2
    let n := match rn.1 with
      | .ok v => v
      | .error _ => 0
    let rc := sp_static_b data [','] rn.2
    if rc.1 then
      let rm := pp_number data rc.2
      let m := match rm.1 with
        | .ok v => some v
        | .error _ => none
      let rb := sp_static_match data ['}'] rm.2
      let rq := sp_static_b data ['?'] rb.2
      (.ok (.Repeated base n m), rq.2)
    else
      let rb := sp_static_match data ['}'] rc.2
      let rq := sp_static_b data ['?'] rb.2
      (.ok (.Repeated base n (some n)), rq.2)
  else (.ok base, r4.2)

/-- `ParsePattern::atom`. -/
def pp_atom (data : List Char) (st : PPState) : Except PErr RegexElement × PPState :=
  let r1 := sp_static_b data ['['] st
  if r1.1 then
    match pp_chargroup data r1.2 with
    | (.ok cg, st2) => pp_repetition data cg st2
    | (.error (.noMatch _), st2) => (.error (.noMatch st2.index), st2)
    | (.error e, st2) => (.error e, st2)
  else
  let r2 := sp_static_b data ['\\'] r1.2
  if r2.1 then
    match pp_escaped data false r2.2 with
    | (.ok cg, st3) => pp_repetition data cg st3
    | (.error (.noMatch _), st3) => (.error (.noMatch st3.index), st3)
    | (.error e, st3) => (.error e, st3)
  else
  let r3 := sp_static_b data ['.'] r2.2
  if r3.1 then pp_repetition data (.CharGroup ['\n'] true) r3.2
  else
  let r4 := sp_static_b data ['$'] r3.2
  if r4.1 then (.error (.noMatch r4.2.index), r4.2)
  else
  let r5 := sp_static_b data ['^'] r4.2
  if r5.1 then (.error (.noMatch r5.2.index), r5.2)
  else
    match sp_any_but data special_chars_standard 1 r5.2 with
    | (.ok cs, st6) =>
      match cs.head? with
      | some c => pp_repetition data (.CharGroup (mkCharSet [c]) false) st6
      | none => (.error .abort, st6)
    | (.error e, st6) => (.error e, st6)

/-- The flag characters `"aiLmsux"`. -/
def flagChars : List Char := ['a', 'i', 'L', 'm', 's', 'u', 'x']

/-- `ParsePattern::extension_group`: reads the flag characters and then
unconditionally hits `unimplemented!("Missing cases")`. -/
def pp_extension_group (data : List Char) (st : PPState) :
    Except PErr RegexElement × PPState :=
  match sp_any data 1 st with
  | (.error e, st1) => (.error e, st1)
  | (.ok cs, st1) =>
    if cs ∈ ([['a'], ['i'], ['L'], ['m'], ['s'], ['u'], ['x'], ['-']] : List (List Char)) then
      let st2 := { st1 with index := st1.index - 1 }
      match sp_multiple data flagChars 0 none st2 with
      | (.error e, st3) => (.error e, st3)
      | (.ok _, st3) =>
        let rd := sp_static_b data ['-'] st3
        if rd.1 then
          match sp_multiple data flagChars 1 none rd.2 with
          | (.error e, st5) => (.error e, st5)
          | (.ok _, st5) => (.error .abort, st5)
        else (.error .abort, rd.2)
    else (.error .abort, st1)

mutual

/-- `ParsePattern::pattern` (fuel-bounded mutual recursion through
groups). -/
def pp_pattern (data : List Char) : Nat → PPState → Except PErr RegexElement × PPState
  | 0, st => (.error .fuelOut, st)
  | n + 1, st =>
    match pp_conc data n st with
    | (.error e, st1) => (.error e, st1)
    | (.ok c, st1) => pp_pattern_loop data n [c] st1

/-- The `while self.parser.static_b("|")` loop of
`ParsePattern::pattern`. -/
def pp_pattern_loop (data : List Char) : Nat → List RegexElement → PPState →
    Except PErr RegexElement × PPState
  | 0, _, st => (.error .fuelOut, st)
  | n + 1, acc, st =>
    let rb := sp_static_b data ['|'] st
    if rb.1 then
      match pp_conc data n rb.2 with
      | (.error e, st2) => (.error e, st2)
      | (.ok c, st2) => pp_pattern_loop data n (acc ++ [c]) st2
    else (.ok (.Alternation acc), rb.2)

/-- `ParsePattern::conc`. -/
def pp_conc (data : List Char) : Nat → PPState → Except PErr RegexElement × PPState
  | 0, st => (.error .fuelOut, st)
  | n + 1, st => pp_conc_loop data n [] st

/-- The `while let Ok(obj) = self.obj()` loop of `ParsePattern::conc`: a
`NoMatch` from `obj` ends the loop (keeping the parser state the failed
call left behind), panics propagate. -/
def pp_conc_loop (data : List Char) : Nat → List RegexElement → PPState →
    Except PErr RegexElement × PPState
  | 0, _, st => (.error .fuelOut, st)
  | n + 1, acc, st =>
    match pp_obj data n st with
    | (.ok o, st1) => pp_conc_loop data n (acc ++ [o]) st1
    | (.error (.noMatch _), st1) => (.ok (.Concatenation acc), st1)
    | (.error e, st1) => (.error e, st1)

/-- `ParsePattern::obj`. -/
def pp_obj (data : List Char) : Nat → PPState → Except PErr RegexElement × PPState
  | 0, st => (.error .fuelOut, st)
  | n + 1, st =>
    let rp := sp_static_b data ['('] st
    if rp.1 then pp_group data n rp.2
    else
      match pp_atom data rp.2 with
      | (.ok a, st2) => pp_repetition data a st2
      | (.error (.noMatch _), st2) => (.error (.noMatch st2.index), st2)
      | (.error e, st2) => (.error e, st2)

/-- `ParsePattern::group` (`self.pattern().unwrap()`: a parse failure
inside a group is a panic in the source). -/
def pp_group (data : List Char) : Nat → PPState → Except PErr RegexElement × PPState
  | 0, st => (.error .fuelOut, st)
  | n + 1, st =>
    let rq := sp_static_b data ['?'] st
    if rq.1 then pp_extension_group data rq.2
    else
      match pp_pattern data n rq.2 with
      | (.ok p, st2) =>
        let rc := sp_static_b data [')'] st2
        pp_repetition data p rc.2
      | (.error .fuelOut, st2) => (.error .fuelOut, st2)
      | (.error _, st2) => (.error .abort, st2)

end

mutual

/-- `RegexElement::simplify` (note the `Concatenation` arm of the
source computes simplified parts but returns `self.clone()`). -/
def RegexElement.simplify : RegexElement → RegexElement
  | .Alternation [.Concatenation [.Alternation opts]] =>
      RegexElement.simplify (.Alternation opts)
  | .Alternation options => .Alternation (simplifyList options)
  | .Repeated e mn mx => .Repeated (RegexElement.simplify e) mn mx
  | .Concatenation parts => .Concatenation parts
  | e => e

/-- `simplify` mapped over a list of options. -/
def simplifyList : List RegexElement → List RegexElement
  | [] => []
  | x :: xs => RegexElement.simplify x :: simplifyList xs

end

/-- `ParsePattern::start` (the fuel is ample for any input: every
recursion step of the parser either consumes input or moves to a
smaller construct). -/
def pp_start (data : List Char) (st : PPState) : Except PErr RegexElement × PPState :=
  let st1 := { st with flags := none }
  match pp_pattern data (4 * data.length + 16) st1 with
  | (.ok p, st2) =>
    match st2.flags with
    | some fl => (.ok (.Flag p (fl.map flagOfNat) []), { st2 with flags := none })
    | none => (.ok p, st2)
  | (.error e, st2) => (.error e, st2)

/-- `ParsePattern::parse`: run `start`, then fail with the deepest
expected index when input remains. -/
def pp_parse (data : List Char) : Except PErr RegexElement :=
  match pp_start data ⟨0, [], none⟩ with
  | (.ok r, st1) =>
    if st1.index < data.length then .error (.noMatch (st1.expected.foldl max 0))
    else .ok r
  | (.error e, _) => .error e

/-- `parse_pattern` from `src/interegular/patterns.rs`. -/
def parse_pattern (data : List Char) : Except PErr RegexElement :=
  match pp_parse data with
  | .ok r => .ok r.simplify
  | .error e => .error e

/-! ## `src/json_schema/parsing.rs`: `parse_any_of` / `parse_one_of`

Both functions first map the same `to_regex` over the subschema list;
the functions below take the resulting list of subregex strings and
perform the remaining (purely string-building) work of each arm. -/

/-- `Vec::join("|")`. -/
def joinBar : List String → String
  | [] => ""
  | [r] => r
  | r :: rest => r ++ "|" ++ joinBar rest

/-- The string assembly of `parse_any_of`:
`format!("({})", subregexes.join("|"))`. -/
def parse_any_of_strings (subregexes : List String) : String :=
  "(" ++ joinBar subregexes ++ ")"

/-- The non-capturing wrapper applied by `parse_one_of` to each
alternative: `format!(r"(?:{})", subregex)`. -/
def oneOfWrap (subregex : String) : String :=
  "(?:" ++ subregex ++ ")"

/-- The string assembly of `parse_one_of`:
`format!("({})", xor_patterns.join("|"))`. -/
def parse_one_of_strings (subregexes : List String) : String :=
  "(" ++ joinBar (subregexes.map oneOfWrap) ++ ")"

/-! ## `src/vocabulary/processor.rs`: byte-fallback token processing -/

/-- UTF-8 encoding of a character, as a list of byte values. -/
def encodeCharBytes (c : Char) : List Nat :=
  let v := c.toNat
  if v < 0x80 then [v]
  else if v < 0x800 then [0xC0 + v / 0x40, 0x80 + v % 0x40]
  else if v < 0x10000 then
    [0xE0 + v / 0x1000, 0x80 + v / 0x40 % 0x40, 0x80 + v % 0x40]
  else
    [0xF0 + v / 0x40000, 0x80 + v / 0x1000 % 0x40, 0x80 + v / 0x40 % 0x40, 0x80 + v % 0x40]

/-- The UTF-8 bytes of a string (`str::as_bytes`). -/
def utf8Bytes (s : List Char) : List Nat :=
  s.flatMap encodeCharBytes

/-- Rust `String::len`: the UTF-8 byte length. -/
def rustLen (s : List Char) : Nat :=
  (s.map (fun c => (encodeCharBytes c).length)).sum

/-- Drop exactly `n` leading bytes from a string; `none` when `n` is not
on a character boundary (where Rust byte slicing panics). -/
def sliceDrop : List Char → Nat → Option (List Char)
  | l, 0 => some l
  | [], _ + 1 => none
  | c :: rest, n + 1 =>
    let k := (encodeCharBytes c).length
    if k ≤ n + 1 then sliceDrop rest (n + 1 - k) else none

/-- Take exactly `n` leading bytes of a string as characters; `none`
when `n` is not on a character boundary. -/
def sliceTake : List Char → Nat → Option (List Char)
  | _, 0 => some []
  | [], _ + 1 => none
  | c :: rest, n + 1 =>
    let k := (encodeCharBytes c).length
    if k ≤ n + 1 then (sliceTake rest (n + 1 - k)).map (fun l => c :: l) else none

/-- Rust byte slicing `&s[a..b]` on a string. -/
def sliceBytes (l : List Char) (a b : Nat) : Option (List Char) :=
  (sliceDrop l a).bind (fun r => sliceTake r (b - a))

/-- Whether a character is an ASCII hexadecimal digit. -/
def isHexDigitChar (c : Char) : Bool :=
  (48 ≤ c.toNat && c.toNat ≤ 57) || (97 ≤ c.toNat && c.toNat ≤ 102) ||
    (65 ≤ c.toNat && c.toNat ≤ 70)

/-- `u8::from_str_radix(s, 16)`: an optional leading `'+'` is accepted
(`'-'` is rejected for unsigned types), the digit string must be
non-empty, every digit must be hexadecimal, and the value must fit in a
byte. -/
def u8_from_str_radix16 (s : List Char) : Option Nat :=
  let digits := if s.head? = some '+' then s.tail else s
  if digits = [] then none
  else
    (digits.foldl (fun acc c =>
      acc.bind (fun a => if isHexDigitChar c then some (16 * a + hexVal c) else none))
      (some 0)).bind (fun v => if v < 256 then some v else none)

/-- `Mods` from `src/vocabulary/processor.rs`. -/
structure Mods where
  spacechar : Char
deriving DecidableEq

/-- The default `Mods` (`spacechar: ' '`). -/
def Mods.default : Mods := ⟨' '⟩

/-- `Mods::apply_default`: replace the decoder's space-substitute
character by the default `' '`. -/
def Mods.apply_default (m : Mods) (token : List Char) : List Char :=
  token.map (fun c => if c = m.spacechar then ' ' else c)

/-- The error/panic outcomes of `TokenProcessor::process`. -/
inductive TPErr where
  | byteFallbackProcessorFailed
  | slicePanic
deriving DecidableEq

/-- The `ByteFallback` arm of `TokenProcessor::process`: a token of
byte-length 6 of the form `<0x__>` is parsed as a hex byte
(`ByteFallbackProcessorFailed` when `u8::from_str_radix` rejects the
middle slice); any other token has the space-substitute replaced and is
taken as its UTF-8 bytes.  (`slicePanic` models the byte-slice panic of
`&token[3..5]`, which the guard makes unreachable.) -/
def process_byte_fallback (m : Mods) (token : List Char) : Except TPErr (List Nat) :=
  if rustLen token = 6 ∧ ['<', '0', 'x'].isPrefixOf token ∧ token.getLast? = some '>' then
    match sliceBytes token 3 5 with
    | none => .error .slicePanic
    | some mid =>
      match u8_from_str_radix16 mid with
      | some b => .ok [b]
      | none => .error .byteFallbackProcessorFailed
  else .ok (utf8Bytes (m.apply_default token))

/-- The transition-key sequence `Index::new` computes for one token
(the per-token body of `get_vocabulary_transition_keys_internal`). -/
def token_keys (fsm : FSMInfo) (frozen : List (List Char)) (t : List Char) : List Nat :=
  if t ∈ frozen then
    [alphabet_lookup fsm.alphabet_symbol_mapping fsm.alphabet_anything_value t]
  else
    get_token_transition_keys_internal fsm.alphabet_symbol_mapping
      fsm.alphabet_anything_value t

/-! # Theorems

Everything from here on is a statement about the definitions above.
First a toolbox of lemmas about the list encodings, then the worklist
invariant of `Index::new`, then the claim theorems. -/

/-- A value produced by `List.lookup` on the transition map is a
transition target. -/
theorem lookup_mem_values {trans : List ((Nat × Nat) × Nat)} {k : Nat × Nat} {v : Nat}
    (h : List.lookup k trans = some v) : v ∈ trans.map (fun t => t.2) := by
  induction trans with
  | nil => simp [List.lookup] at h
  | cons hd tl ih =>
    rw [List.lookup] at h
    by_cases hk : k = hd.1
    · simp [hk] at h
      simp [h]
    · simp [beq_eq_false_iff_ne.mpr hk] at h
      simp [ih h]

/-- `getLastD` of a non-empty list is a member. -/
theorem getLastD_mem_of_ne {l : List Nat} (h : l ≠ []) : l.getLastD 0 ∈ l := by
  rw [List.getLastD_eq_getLast?, List.getLast?_eq_getLast l h]
  exact List.getLast_mem h

/-- Membership in the overwrite-insert of one `(state, token_id)` key. -/
theorem mem_insertTriple {es : List (Nat × Nat × Nat)} {s tid e a b c : Nat} :
    (a, b, c) ∈ insertTriple es s tid e ↔
      (a = s ∧ b = tid ∧ c = e) ∨ ((a, b, c) ∈ es ∧ ¬(a = s ∧ b = tid)) := by
  simp only [insertTriple, List.mem_append, List.mem_filter, List.mem_singleton]
  constructor
  · rintro (⟨hm, hd⟩ | h)
    · right
      refine ⟨hm, ?_⟩
      simpa using of_decide_eq_true hd
    · left
      simp only [Prod.mk.injEq] at h
      exact ⟨h.1, h.2.1, h.2.2⟩
  · rintro (⟨ha, hb, hc⟩ | ⟨hm, hd⟩)
    · right; simp [ha, hb, hc]
    · left
      exact ⟨hm, decide_eq_true (by simpa using hd)⟩

/-- A binding returned by `lastAssoc` occurs in the list. -/
theorem lastAssoc_mem {l : List (Nat × Nat)} {b c : Nat} (h : lastAssoc l b = some c) :
    (b, c) ∈ l := by
  induction l with
  | nil => simp [lastAssoc] at h
  | cons p rest ih =>
    rw [lastAssoc] at h
    cases hr : lastAssoc rest b with
    | some v =>
      rw [hr] at h
      simp at h
      subst h
      exact List.mem_cons_of_mem _ (ih hr)
    | none =>
      rw [hr] at h
      by_cases hp : p.1 = b
      · simp [hp] at h
        have : (b, c) = p := by
          rw [← hp, ← h]
        rw [this]
        exact List.mem_cons_self p rest
      · simp [hp] at h

/-- A key occurring in the list makes `lastAssoc` return a binding. -/
theorem lastAssoc_isSome_of_mem {l : List (Nat × Nat)} {b c : Nat} (h : (b, c) ∈ l) :
    ∃ v, lastAssoc l b = some v := by
  induction l with
  | nil => simp at h
  | cons p rest ih =>
    rw [lastAssoc]
    cases hr : lastAssoc rest b with
    | some v => exact ⟨v, rfl⟩
    | none =>
      rcases List.mem_cons.mp h with hp | hm
      · refine ⟨p.2, ?_⟩
        have hb : p.1 = b := by rw [← hp]
        simp [hb]
      · obtain ⟨v, hv⟩ := ih hm
        rw [hv] at hr
        exact absurd hr (by simp)

/-- Under the functional hypothesis, `lastAssoc` on any permutation of a
scan-result set returns exactly the bindings of the set. -/
theorem lastAssoc_scan {pairs scan : List (Nat × Nat)} (hperm : pairs.Perm scan)
    (hfun : ∀ p ∈ scan, ∀ q ∈ scan, p.1 = q.1 → p.2 = q.2) {b c : Nat} :
    lastAssoc pairs b = some c ↔ (b, c) ∈ scan := by
  constructor
  · intro h
    exact hperm.mem_iff.mp (lastAssoc_mem h)
  · intro h
    obtain ⟨v, hv⟩ := lastAssoc_isSome_of_mem (hperm.mem_iff.mpr h)
    have hm : (b, v) ∈ scan := hperm.mem_iff.mp (lastAssoc_mem hv)
    have := hfun _ hm _ h rfl
    simp at this
    rw [hv, this]

/-- Membership in the folded edge inserts of one processed state. -/
theorem mem_scan_insert_edges (pairs : List (Nat × Nat)) (es : List (Nat × Nat × Nat))
    (s a b c : Nat) :
    (a, b, c) ∈ scan_insert_edges s pairs es ↔
      (if a = s then
        lastAssoc pairs b = some c ∨ (lastAssoc pairs b = none ∧ (a, b, c) ∈ es)
      else (a, b, c) ∈ es) := by
  induction pairs generalizing es with
  | nil =>
    by_cases ha : a = s <;> simp [scan_insert_edges, lastAssoc, ha]
  | cons q rest ih =>
    obtain ⟨q1, q2⟩ := q
    have step : scan_insert_edges s ((q1, q2) :: rest) es =
        scan_insert_edges s rest (insertTriple es s q1 q2) := rfl
    rw [step, ih]
    by_cases ha : a = s
    · subst ha
      simp only [if_pos rfl]
      rw [lastAssoc]
      cases hr : lastAssoc rest b with
      | some v => simp
      | none =>
        by_cases hb : q1 = b
        · subst hb
          simp only [if_pos rfl, mem_insertTriple]
          simp [eq_comm]
        · simp only [if_neg hb, mem_insertTriple]
          have hbq : ¬b = q1 := fun hh => hb hh.symm
          simp [hbq]
    · simp only [if_neg ha, mem_insertTriple]
      simp [ha]

/-- Membership in the pending list after folding the scan results: the
old pending states plus every unseen scan end state. -/
theorem mem_scan_insert_pending (pairs : List (Nat × Nat)) (seen p0 : List Nat) (x : Nat) :
    x ∈ scan_insert_pending seen pairs p0 ↔
      x ∈ p0 ∨ (x ∉ seen ∧ ∃ tid, (tid, x) ∈ pairs) := by
  induction pairs generalizing p0 with
  | nil => simp [scan_insert_pending]
  | cons q rest ih =>
    have step : scan_insert_pending seen (q :: rest) p0 =
        scan_insert_pending seen rest (if q.2 ∈ seen ∨ q.2 ∈ p0 then p0 else p0 ++ [q.2]) := rfl
    rw [step, ih]
    by_cases hq : q.2 ∈ seen ∨ q.2 ∈ p0
    · simp only [if_pos hq]
      constructor
      · rintro (h | ⟨hs, tid, hm⟩)
        · exact Or.inl h
        · exact Or.inr ⟨hs, tid, List.mem_cons_of_mem _ hm⟩
      · rintro (h | ⟨hs, tid, hm⟩)
        · exact Or.inl h
        · rcases List.mem_cons.mp hm with he | hm2
          · rcases hq with hq | hq
            · exact absurd (by rw [← he] at hq; exact hq) hs
            · exact Or.inl (by rw [← he] at hq; exact hq)
          · exact Or.inr ⟨hs, tid, hm2⟩
    · simp only [if_neg hq]
      push_neg at hq
      constructor
      · rintro (h | ⟨hs, tid, hm⟩)
        · rcases List.mem_append.mp h with h | h
          · exact Or.inl h
          · simp at h
            subst h
            exact Or.inr ⟨hq.1, q.1, by simp⟩
        · exact Or.inr ⟨hs, tid, List.mem_cons_of_mem _ hm⟩
      · rintro (h | ⟨hs, tid, hm⟩)
        · exact Or.inl (List.mem_append_left _ h)
        · rcases List.mem_cons.mp hm with he | hm2
          · exact Or.inl (List.mem_append_right _ (by simp [← he]))
          · exact Or.inr ⟨hs, tid, hm2⟩

/-- The pending-insert fold preserves `Nodup`. -/
theorem nodup_scan_insert_pending (pairs : List (Nat × Nat)) (seen : List Nat)
    {p0 : List Nat} (h : p0.Nodup) : (scan_insert_pending seen pairs p0).Nodup := by
  induction pairs generalizing p0 with
  | nil => exact h
  | cons q rest ih =>
    have step : scan_insert_pending seen (q :: rest) p0 =
        scan_insert_pending seen rest (if q.2 ∈ seen ∨ q.2 ∈ p0 then p0 else p0 ++ [q.2]) := rfl
    rw [step]
    by_cases hq : q.2 ∈ seen ∨ q.2 ∈ p0
    · rw [if_pos hq]
      exact ih h
    · rw [if_neg hq]
      push_neg at hq
      exact ih ((List.nodup_append_comm.mp (by simpa using ⟨hq.2, h⟩)))

/-- Every scan end state inserted into pending was already pending or is
an end state of the scan (fold direction used for the closure
invariant). -/
theorem scan_insert_pending_covers (pairs : List (Nat × Nat)) (seen p0 : List Nat)
    {tid x : Nat} (hm : (tid, x) ∈ pairs) :
    x ∈ seen ∨ x ∈ scan_insert_pending seen pairs p0 := by
  by_cases hs : x ∈ seen
  · exact Or.inl hs
  · exact Or.inr ((mem_scan_insert_pending pairs seen p0 x).mpr (Or.inr ⟨hs, tid, hm⟩))

/-- Every state visited by `walk_fsm_go` beyond the accumulator is a
transition target. -/
theorem walk_fsm_go_subset {trans : List ((Nat × Nat) × Nat)} {finals : List Nat}
    {full : Bool} :
    ∀ (ks : List Nat) (s : Nat) (acc : List Nat) (i lf : Nat),
      (∀ y ∈ acc, y ∈ trans.map (fun t => t.2)) →
      ∀ x ∈ walk_fsm_go trans finals full ks s acc i lf, x ∈ trans.map (fun t => t.2) := by
  intro ks
  induction ks with
  | nil =>
    intro s acc i lf hacc x hx
    rw [walk_fsm_go] at hx
    split at hx
    · simp at hx
    · exact hacc x hx
  | cons k ks ih =>
    intro s acc i lf hacc x hx
    rw [walk_fsm_go] at hx
    cases hl : List.lookup (s, k) trans with
    | some ns =>
      rw [hl] at hx
      refine ih ns (acc ++ [ns]) (i + 1) _ ?_ x hx
      intro y hy
      rcases List.mem_append.mp hy with hy | hy
      · exact hacc y hy
      · simp at hy
        subst hy
        exact lookup_mem_values hl
    | none =>
      rw [hl] at hx
      by_cases hc : ¬full ∧ 0 < lf
      · rw [if_pos hc] at hx
        exact hacc x (List.take_subset _ _ hx)
      · rw [if_neg hc] at hx
        simp at hx

/-- `walk_fsm_go` never returns more states than it has keys plus
accumulator entries. -/
theorem walk_fsm_go_length {trans : List ((Nat × Nat) × Nat)} {finals : List Nat}
    {full : Bool} :
    ∀ (ks : List Nat) (s : Nat) (acc : List Nat) (i lf : Nat), acc.length = i → lf ≤ i →
      (walk_fsm_go trans finals full ks s acc i lf).length ≤ i + ks.length := by
  intro ks
  induction ks with
  | nil =>
    intro s acc i lf hacc hlf
    rw [walk_fsm_go]
    split
    · simp
    · simp [hacc]
  | cons k ks ih =>
    intro s acc i lf hacc hlf
    rw [walk_fsm_go]
    cases hl : List.lookup (s, k) trans with
    | some ns =>
      dsimp only
      have := ih ns (acc ++ [ns]) (i + 1) (if ns ∈ finals then i + 1 else lf)
        (by simp [hacc]) (by split <;> omega)
      simp only [List.length_cons]
      omega
    | none =>
      dsimp only
      by_cases hc : ¬full ∧ 0 < lf
      · rw [if_pos hc]
        have hle : (acc.take lf).length ≤ lf := by simp
        simp only [List.length_cons]
        omega
      · rw [if_neg hc]
        simp

/-- The trajectory of `walk_fsm_internal` is never longer than the key
sequence. -/
theorem walk_fsm_internal_length_le (trans : List ((Nat × Nat) × Nat)) (finals : List Nat)
    (keys : List Nat) (start : Nat) (full : Bool) :
    (walk_fsm_internal trans finals keys start full).length ≤ keys.length := by
  simpa using walk_fsm_go_length keys start [] 0 0 rfl (Nat.le_refl 0)

/-- The key sequence of a non-empty token is non-empty. -/
theorem token_keys_ne_nil {fsm : FSMInfo} {frozen : List (List Char)} {t : List Char}
    (h : t ≠ []) : token_keys fsm frozen t ≠ [] := by
  rw [token_keys]
  split
  · simp
  · cases t with
    | nil => exact absurd rfl h
    | cons c rest =>
      cases rest with
      | nil => simp [get_token_transition_keys_internal]
      | cons c1 rest2 =>
        cases rest2 with
        | nil => simp [get_token_transition_keys_internal]
        | cons c2 rest3 =>
          rw [get_token_transition_keys_internal]
          split <;> simp

/-- `state_scan_tokens_internal` with its `let` unfolded. -/
theorem state_scan_eq (trans : List ((Nat × Nat) × Nat)) (finals : List Nat)
    (vocab : List (List Char × List Nat)) (keysList : List (List Nat)) (start : Nat) :
    state_scan_tokens_internal trans finals vocab keysList start =
      (vocab.zip keysList).flatMap (fun p =>
        if (walk_fsm_internal trans finals p.2 start false).length < p.2.length then []
        else p.1.2.map (fun tid =>
          (tid, (walk_fsm_internal trans finals p.2 start false).getLastD 0))) := rfl

/-- Characterisation of the scan-result set of a state: a pair
`(tid, e)` is recorded exactly when some vocabulary entry carries the
token id and its full key sequence can be walked from `start`, ending
at `e`. -/
theorem mem_scanOf_iff {fsm : FSMInfo} {vocab : List (List Char × List Nat)}
    {frozen : List (List Char)} {s tid e : Nat} :
    (tid, e) ∈ scanOf fsm vocab frozen s ↔
      ∃ p ∈ vocab, tid ∈ p.2 ∧
        (walk_fsm_internal fsm.transitions fsm.finals (token_keys fsm frozen p.1) s
            false).length = (token_keys fsm frozen p.1).length ∧
        e = (walk_fsm_internal fsm.transitions fsm.finals (token_keys fsm frozen p.1) s
            false).getLastD 0 := by
  have hkeys : get_vocabulary_transition_keys_internal fsm.alphabet_symbol_mapping
      fsm.alphabet_anything_value vocab frozen = vocab.map (fun p => token_keys fsm frozen p.1) :=
    rfl
  rw [scanOf, state_scan_eq, hkeys, ← List.map_prod_left_eq_zip, List.flatMap_map]
  rw [List.mem_flatMap]
  constructor
  · rintro ⟨p, hp, hm⟩
    dsimp at hm
    set w := walk_fsm_internal fsm.transitions fsm.finals (token_keys fsm frozen p.1) s false
      with hw
    by_cases hlt : w.length < (token_keys fsm frozen p.1).length
    · rw [if_pos hlt] at hm
      simp at hm
    · rw [if_neg hlt] at hm
      rw [List.mem_map] at hm
      obtain ⟨t, ht, heq⟩ := hm
      obtain ⟨h1, h2⟩ := Prod.mk.injEq .. ▸ heq
      refine ⟨p, hp, h1 ▸ ht, ?_, h2.symm⟩
      exact Nat.le_antisymm (walk_fsm_internal_length_le _ _ _ _ _) (Nat.le_of_not_lt hlt)
  · rintro ⟨p, hp, ht, hlen, he⟩
    refine ⟨p, hp, ?_⟩
    dsimp
    rw [if_neg (by omega)]
    rw [List.mem_map]
    exact ⟨tid, ht, by rw [he]⟩

/-- Every scan end state is a transition target (for vocabularies
without the empty token). -/
theorem scan_end_mem {fsm : FSMInfo} {vocab : List (List Char × List Nat)}
    {frozen : List (List Char)} (Hne : VocabNonempty vocab) {s tid e : Nat}
    (h : (tid, e) ∈ scanOf fsm vocab frozen s) :
    e ∈ fsm.transitions.map (fun t => t.2) := by
  rw [mem_scanOf_iff] at h
  obtain ⟨p, hp, _, hlen, he⟩ := h
  have hks : token_keys fsm frozen p.1 ≠ [] := token_keys_ne_nil (Hne p hp)
  have hw : walk_fsm_internal fsm.transitions fsm.finals (token_keys fsm frozen p.1) s
      false ≠ [] := by
    intro hnil
    rw [hnil] at hlen
    simp at hlen
    exact hks (List.eq_nil_of_length_eq_zero hlen.symm)
  rw [he]
  exact walk_fsm_go_subset _ _ [] 0 0 (by simp) _ (getLastD_mem_of_ne hw)

/-- The picked pending state is pending. -/
theorem step_pick_mem {pending : List Nat} (h : pending ≠ []) (O : IterOrder) :
    step_pick O pending ∈ pending := by
  have hlen : 0 < pending.length := List.length_pos.mpr h
  have hidx : O.pick pending % pending.length < pending.length := Nat.mod_lt _ hlen
  rw [step_pick, List.getD_eq_getElem?_getD, List.getElem?_eq_getElem hidx]
  exact List.getElem_mem hidx

/-- When every scan end state is already seen or pending, the pending
fold is the identity (second processings of a state add nothing). -/
theorem scan_insert_pending_id {seen p0 : List Nat} {pairs : List (Nat × Nat)}
    (h : ∀ q ∈ pairs, q.2 ∈ seen ∨ q.2 ∈ p0) : scan_insert_pending seen pairs p0 = p0 := by
  induction pairs with
  | nil => rfl
  | cons q rest ih =>
    have step : scan_insert_pending seen (q :: rest) p0 =
        scan_insert_pending seen rest (if q.2 ∈ seen ∨ q.2 ∈ p0 then p0 else p0 ++ [q.2]) := rfl
    rw [step, if_pos (h q (List.mem_cons_self q rest))]
    exact ih (fun q' hq' => h q' (List.mem_cons_of_mem _ hq'))

/-- A permutation transfers non-emptiness. -/
theorem perm_ne_nil {l r : List (Nat × Nat)} (h : l.Perm r) : l ≠ [] ↔ r ≠ [] := by
  constructor
  · intro hl hr
    exact hl (by rw [hr] at h; exact h.eq_nil)
  · intro hr hl
    exact hr (by rw [hl] at h; exact h.symm.eq_nil)

/-- One loop iteration preserves the invariant and decreases the
measure. -/
theorem run_step_preserves {fsm : FSMInfo} {vocab : List (List Char × List Nat)}
    {frozen : List (List Char)} {eos : Nat} {O : IterOrder}
    (Hne : VocabNonempty vocab) (HO : OrderValid fsm vocab frozen O)
    (Hfun : ScanFunctional fsm vocab frozen)
    {cfg : BuildConfig} (hInv : LoopInv fsm vocab frozen eos cfg) (hpend : cfg.pending ≠ []) :
    LoopInv fsm vocab frozen eos
        (run_step fsm vocab
          (get_vocabulary_transition_keys_internal fsm.alphabet_symbol_mapping
            fsm.alphabet_anything_value vocab frozen) eos O cfg) ∧
      loopMeasure fsm
          (run_step fsm vocab
            (get_vocabulary_transition_keys_internal fsm.alphabet_symbol_mapping
              fsm.alphabet_anything_value vocab frozen) eos O cfg) <
        loopMeasure fsm cfg := by
  obtain ⟨pending, seen, edges⟩ := cfg
  simp only at hpend
  cases hpc : pending with
  | nil => exact absurd hpc hpend
  | cons p0 prest =>
  subst hpc
  set pending := p0 :: prest with hpdef
  set s := step_pick O pending with hs
  have hsmem : s ∈ pending := step_pick_mem (by simp [hpdef]) O
  have hsU : s ∈ stateUniverse fsm := hInv.pend_univ s hsmem
  have hsR : ReachState fsm vocab frozen s := hInv.pend_reach s hsmem
  set K := scanOf fsm vocab frozen s with hK
  set pairs := O.reorder s K with hpairs
  have hperm : pairs.Perm K := HO s hsU
  have hfunS := Hfun s hsU
  have hLA : ∀ b c : Nat, lastAssoc pairs b = some c ↔ (b, c) ∈ K :=
    fun b c => lastAssoc_scan hperm hfunS
  have hne_iff : pairs ≠ [] ↔ K ≠ [] := perm_ne_nil hperm
  set E1 := scan_insert_edges s pairs edges with hE1
  set E2 := if s ∈ fsm.finals ∧ pairs ≠ [] then insertTriple E1 s eos s else E1 with hE2
  set S2 := if s ∈ seen then seen else seen ++ [s] with hS2
  set P2 := scan_insert_pending seen pairs (pending.erase s) with hP2
  have hrun : run_step fsm vocab
      (get_vocabulary_transition_keys_internal fsm.alphabet_symbol_mapping
        fsm.alphabet_anything_value vocab frozen) eos O ⟨pending, seen, edges⟩ =
      ⟨P2, S2, E2⟩ := rfl
  rw [hrun]
  have hSseen : ∀ x ∈ seen, x ∈ S2 := by
    intro x hx
    rw [hS2]
    split
    · exact hx
    · exact List.mem_append_left _ hx
  have hSs : s ∈ S2 := by
    rw [hS2]
    split
    · assumption
    · exact List.mem_append_right _ (by simp)
  have hmemS2 : ∀ x, x ∈ S2 ↔ x ∈ seen ∨ x = s := by
    intro x
    rw [hS2]
    split
    · rename_i hins
      constructor
      · exact fun h => Or.inl h
      · rintro (h | h)
        · exact h
        · rw [h]; exact hins
    · simp [List.mem_append]
  have hmemP2 : ∀ x, x ∈ P2 ↔ x ∈ pending.erase s ∨ (x ∉ seen ∧ ∃ tid, (tid, x) ∈ pairs) :=
    fun x => mem_scan_insert_pending pairs seen (pending.erase s) x
  have hpairK : ∀ {tid x : Nat}, (tid, x) ∈ pairs → (tid, x) ∈ K :=
    fun h => hperm.mem_iff.mp h
  have hInv' : LoopInv fsm vocab frozen eos ⟨P2, S2, E2⟩ := by
    constructor
    · -- pend_nodup
      exact nodup_scan_insert_pending pairs seen (hInv.pend_nodup.erase s)
    · -- pend_univ
      intro x hx
      rcases (hmemP2 x).mp hx with hx | ⟨_, tid, hx⟩
      · exact hInv.pend_univ x (List.erase_subset _ _ hx)
      · have := scan_end_mem Hne (hpairK hx)
        exact List.mem_cons_of_mem _ this
    · -- seen_univ
      intro x hx
      rcases (hmemS2 x).mp hx with hx | hx
      · exact hInv.seen_univ x hx
      · rw [hx]; exact hsU
    · -- pend_reach
      intro x hx
      rcases (hmemP2 x).mp hx with hx | ⟨_, tid, hx⟩
      · exact hInv.pend_reach x (List.erase_subset _ _ hx)
      · exact ReachState.step hsR (hpairK hx)
    · -- seen_reach
      intro x hx
      rcases (hmemS2 x).mp hx with hx | hx
      · exact hInv.seen_reach x hx
      · rw [hx]; exact hsR
    · -- closed
      intro s' hs' p hp
      rcases (hmemS2 s').mp hs' with hold | hnew
      · rcases hInv.closed s' hold p hp with hc | hc
        · exact Or.inl (hSseen _ hc)
        · by_cases hps : p.2 = s
          · exact Or.inl (hps ▸ hSs)
          · refine Or.inr ((hmemP2 _).mpr (Or.inl ?_))
            exact (List.mem_erase_of_ne hps).mpr hc
      · subst hnew
        have hpK : (p.1, p.2) ∈ pairs := hperm.mem_iff.mpr (by simpa using hp)
        rcases scan_insert_pending_covers pairs seen (pending.erase s) hpK with hc | hc
        · exact Or.inl (hSseen _ hc)
        · exact Or.inr hc
    · -- init_in
      rcases hInv.init_in with hc | hc
      · exact Or.inl (hSseen _ hc)
      · by_cases his : fsm.initial = s
        · exact Or.inl (his ▸ hSs)
        · refine Or.inr ((hmemP2 _).mpr (Or.inl ?_))
          exact (List.mem_erase_of_ne his).mpr hc
    · -- edges_char
      intro a b c
      have hE1mem : (a, b, c) ∈ E1 ↔
          (if a = s then
            lastAssoc pairs b = some c ∨ (lastAssoc pairs b = none ∧ (a, b, c) ∈ edges)
          else (a, b, c) ∈ edges) := mem_scan_insert_edges pairs edges s a b c
      by_cases ha : a = s
      · subst ha
        have hS2a : s ∈ S2 := hSs
        rw [hE2]
        by_cases hguard : s ∈ fsm.finals ∧ pairs ≠ []
        · rw [if_pos hguard]
          rw [mem_insertTriple]
          by_cases hb : b = eos
          · subst hb
            constructor
            · intro h
              rcases h with ⟨_, _, hc⟩ | ⟨_, hnot⟩
              · exact ⟨hS2a, Or.inr ⟨hguard.1, hne_iff.mp hguard.2, rfl, hc⟩⟩
              · exact absurd ⟨rfl, rfl⟩ hnot
            · rintro ⟨_, hentry⟩
              rcases hentry with ⟨hmem, hnot⟩ | ⟨_, _, _, hc⟩
              · exact absurd ⟨rfl, hguard.1⟩ hnot
              · exact Or.inl ⟨rfl, rfl, hc⟩
          · have hnb : ¬(s = s ∧ b = eos) := fun h => hb h.2
            simp only [hnb, not_false_eq_true, and_true, hb, false_and, and_false, false_or]
            rw [hE1mem, if_pos rfl]
            constructor
            · rintro (hla | ⟨hla, hmem⟩)
              · exact ⟨hS2a, Or.inl ⟨(hLA b c).mp hla, fun h => hb h.1⟩⟩
              · rcases (hInv.edges_char s b c).mp hmem with ⟨hseen, hentry⟩
                rcases hentry with ⟨hmemK, _⟩ | ⟨_, _, hbe, _⟩
                · obtain ⟨v, hv⟩ := lastAssoc_isSome_of_mem (hperm.mem_iff.mpr hmemK)
                  rw [hv] at hla
                  exact absurd hla (by simp)
                · exact absurd hbe hb
            · rintro ⟨_, hentry⟩
              rcases hentry with ⟨hmemK, _⟩ | ⟨_, _, hbe, _⟩
              · exact Or.inl ((hLA b c).mpr hmemK)
              · exact absurd hbe hb
        · rw [if_neg hguard]
          rw [hE1mem, if_pos rfl]
          rcases Decidable.not_and_iff_or_not.mp hguard with hnf | hnp
          · constructor
            · rintro (hla | ⟨hla, hmem⟩)
              · exact ⟨hS2a, Or.inl ⟨(hLA b c).mp hla, fun h => hnf h.2⟩⟩
              · rcases (hInv.edges_char s b c).mp hmem with ⟨_, hentry⟩
                rcases hentry with ⟨hmemK, _⟩ | ⟨hf, _, _, _⟩
                · obtain ⟨v, hv⟩ := lastAssoc_isSome_of_mem (hperm.mem_iff.mpr hmemK)
                  rw [hv] at hla
                  exact absurd hla (by simp)
                · exact absurd hf hnf
            · rintro ⟨_, hentry⟩
              rcases hentry with ⟨hmemK, _⟩ | ⟨hf, _, _, _⟩
              · exact Or.inl ((hLA b c).mpr hmemK)
              · exact absurd hf hnf
          · have hpnil : pairs = [] := not_not.mp hnp
            have hKnil : K = [] := by
              rw [hpnil] at hperm
              exact hperm.symm.eq_nil
            constructor
            · rintro (hla | ⟨hla, hmem⟩)
              · have hmm := (hLA b c).mp hla
                rw [hKnil] at hmm
                simp at hmm
              · rcases (hInv.edges_char s b c).mp hmem with ⟨_, hentry⟩
                rcases hentry with ⟨hmemK, _⟩ | ⟨_, hKne, _, _⟩
                · rw [← hK, hKnil] at hmemK
                  simp at hmemK
                · exact absurd hKnil hKne
            · rintro ⟨_, hentry⟩
              rcases hentry with ⟨hmemK, _⟩ | ⟨_, hKne, _, _⟩
              · rw [← hK, hKnil] at hmemK
                simp at hmemK
              · exact absurd hKnil hKne
      · -- a ≠ s: the iteration does not touch a's entries
        have hE2mem : (a, b, c) ∈ E2 ↔ (a, b, c) ∈ edges := by
          rw [hE2]
          split
          · rw [mem_insertTriple]
            rw [hE1mem, if_neg ha]
            constructor
            · rintro (⟨h1, _⟩ | h)
              · exact absurd h1 ha
              · exact h.1
            · intro h
              exact Or.inr ⟨h, fun hh => ha hh.1⟩
          · rw [hE1mem, if_neg ha]
        rw [hE2mem, hInv.edges_char a b c]
        have : a ∈ S2 ↔ a ∈ seen := by
          rw [hmemS2]
          constructor
          · rintro (h | h)
            · exact h
            · exact absurd h ha
          · exact fun h => Or.inl h
        rw [this]
  refine ⟨hInv', ?_⟩
  -- the measure decreases
  by_cases hseen : s ∈ seen
  · have hS2eq : S2 = seen := by rw [hS2, if_pos hseen]
    have hP2eq : P2 = pending.erase s := by
      rw [hP2]
      refine scan_insert_pending_id ?_
      intro q hq
      rcases hInv.closed s hseen (q.1, q.2) (by simpa using hpairK hq) with hc | hc
      · exact Or.inl hc
      · by_cases hqs : q.2 = s
        · exact Or.inl (hqs ▸ hseen)
        · exact Or.inr ((List.mem_erase_of_ne hqs).mpr hc)
    rw [loopMeasure, loopMeasure]
    simp only [hS2eq, hP2eq]
    have hlen : (pending.erase s).length = pending.length - 1 := List.length_erase_of_mem hsmem
    have hpos : 0 < pending.length := by simp [hpdef]
    omega
  · have hS2eq : S2 = seen ++ [s] := by rw [hS2, if_neg hseen]
    rw [loopMeasure, loopMeasure]
    simp only [hS2eq]
    set U := stateUniverse fsm with hU
    have htf : (seen ++ [s]).toFinset = insert s seen.toFinset := by
      ext x
      simp [or_comm]
    rw [htf]
    have hsdiff : U.toFinset \ insert s seen.toFinset = (U.toFinset \ seen.toFinset).erase s := by
      ext y
      simp only [Finset.mem_sdiff, Finset.mem_erase, Finset.mem_insert]
      tauto
    rw [hsdiff]
    have hsin : s ∈ U.toFinset \ seen.toFinset := by
      rw [Finset.mem_sdiff]
      exact ⟨List.mem_toFinset.mpr hsU, fun h => hseen (List.mem_toFinset.mp h)⟩
    have hcard : (U.toFinset \ seen.toFinset).card ≠ 0 := by
      intro h
      rw [Finset.card_eq_zero] at h
      rw [h] at hsin
      simp at hsin
    obtain ⟨Dm, hDm⟩ : ∃ Dm, (U.toFinset \ seen.toFinset).card = Dm + 1 :=
      ⟨(U.toFinset \ seen.toFinset).card - 1, by omega⟩
    rw [Finset.card_erase_of_mem hsin, hDm]
    have hP2le : P2.length ≤ U.length := by
      have hnd : P2.Nodup := hInv'.pend_nodup
      have hsub : P2.toFinset ⊆ U.toFinset := by
        intro x hx
        exact List.mem_toFinset.mpr (hInv'.pend_univ x (List.mem_toFinset.mp hx))
      calc P2.length = P2.toFinset.card := (List.toFinset_card_of_nodup hnd).symm
        _ ≤ U.toFinset.card := Finset.card_le_card hsub
        _ ≤ U.length := U.toFinset_card_le
    have he2 : (Dm + 1) * (U.length + 1) = Dm * (U.length + 1) + (U.length + 1) := by ring
    have hppos : 0 < pending.length := by simp [hpdef]
    simp only [Nat.add_sub_cancel]
    rw [he2]
    omega

/-- With enough fuel the worklist loop drains its pending set, keeping
the invariant. -/
theorem index_loop_done {fsm : FSMInfo} {vocab : List (List Char × List Nat)}
    {frozen : List (List Char)} {eos : Nat} {O : IterOrder}
    (Hne : VocabNonempty vocab) (HO : OrderValid fsm vocab frozen O)
    (Hfun : ScanFunctional fsm vocab frozen) :
    ∀ (n : Nat) (cfg : BuildConfig), LoopInv fsm vocab frozen eos cfg →
      loopMeasure fsm cfg < n →
      (index_loop fsm vocab
          (get_vocabulary_transition_keys_internal fsm.alphabet_symbol_mapping
            fsm.alphabet_anything_value vocab frozen) eos O n cfg).pending = [] ∧
        LoopInv fsm vocab frozen eos
          (index_loop fsm vocab
            (get_vocabulary_transition_keys_internal fsm.alphabet_symbol_mapping
              fsm.alphabet_anything_value vocab frozen) eos O n cfg) := by
  intro n
  induction n with
  | zero =>
    intro cfg _ h
    exact absurd h (by omega)
  | succ n ih =>
    intro cfg hInv hm
    rw [index_loop]
    cases hp : cfg.pending with
    | nil => exact ⟨hp, hInv⟩
    | cons p0 prest =>
      dsimp only
      obtain ⟨hInv', hlt⟩ := run_step_preserves Hne HO Hfun hInv (by rw [hp]; simp)
      exact ih _ hInv' (by omega)

/-- Master characterisation of the edge map built by `Index::new`: a
triple is recorded exactly when its source state is reachable and it is
the surviving entry of that state. -/
theorem built_edges_char {fsm : FSMInfo} {vocab : List (List Char × List Nat)}
    {frozen : List (List Char)} {eos : Nat} {O : IterOrder}
    (Hne : VocabNonempty vocab) (HO : OrderValid fsm vocab frozen O)
    (Hfun : ScanFunctional fsm vocab frozen) (a b c : Nat) :
    (a, b, c) ∈ built_edges fsm vocab frozen eos O ↔
      ReachState fsm vocab frozen a ∧ entryP fsm vocab frozen eos a b c := by
  have hInv0 : LoopInv fsm vocab frozen eos ⟨[fsm.initial], [], []⟩ := by
    constructor
    · simp
    · intro x hx
      simp at hx
      rw [hx]
      exact List.mem_cons_self _ _
    · intro x hx
      simp at hx
    · intro x hx
      simp at hx
      rw [hx]
      exact ReachState.init
    · intro x hx
      simp at hx
    · intro x hx
      simp at hx
    · exact Or.inr (by simp)
    · intro a b c
      simp
  have hμ : loopMeasure fsm ⟨[fsm.initial], [], []⟩ < fuel_bound fsm := by
    rw [loopMeasure, fuel_bound]
    have hc := (stateUniverse fsm).toFinset_card_le
    have hle : ((stateUniverse fsm).toFinset \ ([] : List Nat).toFinset).card ≤
        (stateUniverse fsm).length := by
      calc ((stateUniverse fsm).toFinset \ ([] : List Nat).toFinset).card
          ≤ (stateUniverse fsm).toFinset.card := Finset.card_le_card (Finset.sdiff_subset)
        _ ≤ (stateUniverse fsm).length := hc
    have := Nat.mul_le_mul_right ((stateUniverse fsm).length + 1) hle
    simp only [List.length_singleton]
    omega
  obtain ⟨hdone, hInvF⟩ :=
    index_loop_done Hne HO Hfun (fuel_bound fsm) ⟨[fsm.initial], [], []⟩ hInv0 hμ
  have hbe : built_edges fsm vocab frozen eos O =
      (index_loop fsm vocab
        (get_vocabulary_transition_keys_internal fsm.alphabet_symbol_mapping
          fsm.alphabet_anything_value vocab frozen) eos O (fuel_bound fsm)
        ⟨[fsm.initial], [], []⟩).edges := rfl
  set fin := index_loop fsm vocab
    (get_vocabulary_transition_keys_internal fsm.alphabet_symbol_mapping
      fsm.alphabet_anything_value vocab frozen) eos O (fuel_bound fsm)
    ⟨[fsm.initial], [], []⟩ with hfin
  have hseenR : ∀ x, ReachState fsm vocab frozen x → x ∈ fin.seen := by
    intro x hx
    induction hx with
    | init =>
      rcases hInvF.init_in with h | h
      · exact h
      · rw [hdone] at h
        simp at h
    | step hr hm ih =>
      rename_i s' tid e
      rcases hInvF.closed s' ih (tid, e) hm with h | h
      · exact h
      · rw [hdone] at h
        simp at h
  rw [hbe]
  constructor
  · intro h
    have hh := (hInvF.edges_char a b c).mp h
    exact ⟨hInvF.seen_reach a hh.1, hh.2⟩
  · rintro ⟨hr, he⟩
    exact (hInvF.edges_char a b c).mpr ⟨hseenR a hr, he⟩

/-- With an empty vocabulary the loop never records an edge. -/
theorem index_loop_edges_empty_vocab (fsm : FSMInfo) (kl : List (List Nat)) (eos : Nat) :
    ∀ (n : Nat) (cfg : BuildConfig),
      (index_loop fsm [] kl eos defaultOrder n cfg).edges = cfg.edges := by
  intro n
  induction n with
  | zero => intro cfg; rfl
  | succ n ih =>
    intro cfg
    obtain ⟨pend, seen, edges⟩ := cfg
    cases pend with
    | nil => rfl
    | cons p0 prest =>
      rw [index_loop]
      dsimp only
      rw [ih]
      simp [run_step, scan_insert_edges, state_scan_tokens_internal, defaultOrder]

/-- Claim C3: a token is recorded by the per-state scan exactly when its
whole transition-key sequence can be walked from that state (the
returned trajectory has full length); prefix matches are dropped.  For
the `[a-d]+` DFA indexed over `{"a":[1],"abc":[2],"z":[3]}`, token id 2
appears at state 0 and token id 3 appears nowhere.  (The hypothesis
excludes empty tokens, on which the Rust scan panics.) -/
theorem spec_c3_full_match_scan :
    (∀ (fsm : FSMInfo) (vocab : List (List Char × List Nat)) (frozen : List (List Char))
        (s tid e : Nat), VocabNonempty vocab →
      ((tid, e) ∈ state_scan_tokens_internal fsm.transitions fsm.finals vocab
          (get_vocabulary_transition_keys_internal fsm.alphabet_symbol_mapping
            fsm.alphabet_anything_value vocab frozen) s ↔
        ∃ p ∈ vocab, tid ∈ p.2 ∧
          (walk_fsm_internal fsm.transitions fsm.finals (token_keys fsm frozen p.1) s
              false).length = (token_keys fsm frozen p.1).length ∧
          e = (walk_fsm_internal fsm.transitions fsm.finals (token_keys fsm frozen p.1) s
              false).getLastD 0)) ∧
    (0, 2, 2) ∈ built_edges ex3fsm ex3vocab [] 9 defaultOrder ∧
    ∀ a c : Nat, (a, 3, c) ∉ built_edges ex3fsm ex3vocab [] 9 defaultOrder := by
  refine ⟨fun fsm vocab frozen s tid e _ => mem_scanOf_iff, by decide, ?_⟩
  have hval : built_edges ex3fsm ex3vocab [] 9 defaultOrder =
      [(0, 1, 1), (0, 2, 2), (1, 1, 2), (1, 2, 2), (1, 9, 1), (2, 1, 2), (2, 2, 2), (2, 9, 2)] :=
    by decide
  intro a c hmem
  rw [hval] at hmem
  simp at hmem

/-- Witness for C3 at a concrete input: the scan of state 0 of the
`[a-d]+` DFA records `(2, 2)` for the token `"abc"`. -/
theorem spec_c3_full_match_scan_witness :
    VocabNonempty ex3vocab ∧
      (2, 2) ∈ state_scan_tokens_internal ex3fsm.transitions ex3fsm.finals ex3vocab
        (get_vocabulary_transition_keys_internal ex3fsm.alphabet_symbol_mapping
          ex3fsm.alphabet_anything_value ex3vocab []) 0 :=
  ⟨by decide,
    (spec_c3_full_match_scan.1 ex3fsm ex3vocab [] 0 2 2 (by decide)).mpr
      ⟨(['a', 'b', 'c'], [2]), by decide, by decide, by decide, by decide⟩⟩

/-- Claim C4: `Index::new` fails with `IndexError` exactly when no edge
target of the built map is a DFA final state; an empty vocabulary
always fails.  (The hypothesis excludes empty tokens, on which the Rust
scan panics.) -/
theorem spec_c4_index_error_iff :
    (∀ (fsm : FSMInfo) (vocab : List (List Char × List Nat)) (frozen : List (List Char))
        (eos : Nat) (O : IterOrder), VocabNonempty vocab →
      (index_new fsm vocab frozen eos O = .error .indexError ↔
        ∀ t ∈ built_edges fsm vocab frozen eos O, t.2.2 ∉ fsm.finals)) ∧
    ∀ (fsm : FSMInfo) (frozen : List (List Char)) (eos : Nat),
      index_new fsm [] frozen eos defaultOrder = .error .indexError := by
  constructor
  · intro fsm vocab frozen eos O _
    rw [index_new]
    by_cases h : (built_edges fsm vocab frozen eos O).any (fun t => fsm.finals.contains t.2.2)
    · rw [if_pos h]
      rw [List.any_eq_true] at h
      obtain ⟨t, ht, hc⟩ := h
      constructor
      · intro hcontra
        exact absurd hcontra (by simp)
      · intro hall
        exact absurd (List.mem_of_elem_eq_true hc) (hall t ht)
    · rw [if_neg h]
      constructor
      · intro _ t ht hmem
        exact h (List.any_eq_true.mpr ⟨t, ht, List.elem_eq_true_of_mem hmem⟩)
      · intro _
        rfl
  · intro fsm frozen eos
    rw [index_new]
    have he : built_edges fsm [] frozen eos defaultOrder = [] := by
      rw [built_edges, build_config]
      rw [index_loop_edges_empty_vocab]
    rw [he]
    rfl

/-- Witness for C4 at a concrete input: the index over the regex-`"a"`
DFA and vocabulary `{"a": [7], "b": [8]}` is valid (its edge target 1 is
final), so construction does not return `IndexError`. -/
theorem spec_c4_index_error_iff_witness :
    VocabNonempty ex1vocab ∧
      ¬(index_new ex1fsm ex1vocab [] 99 defaultOrder = .error .indexError) := by
  refine ⟨by decide, ?_⟩
  intro h
  have := (spec_c4_index_error_iff.1 ex1fsm ex1vocab [] 99 defaultOrder (by decide)).mp h
  exact this (0, 7, 1) (by decide) (by decide)

/-- Counterexample to claim C1: on the spec's own scenario (regex `"a"`,
vocabulary `{"a": [7], "b": [8]}`, `eos_token_id` 99) the built edge map
is `{0: {7: 1}}` — the final state 1 gets *no* EOS self-loop, because no
vocabulary token can be consumed from it, and the claimed map
`{0: {7: 1}, 1: {99: 1}}` is wrong. -/
theorem spec_c1_counterexample :
    built_edges ex1fsm ex1vocab [] 99 defaultOrder = [(0, 7, 1)] ∧
      (1, 99, 1) ∉ built_edges ex1fsm ex1vocab [] 99 defaultOrder ∧
      1 ∈ ex1fsm.finals ∧
      index_new ex1fsm ex1vocab [] 99 defaultOrder ≠ .error .indexError := by
  refine ⟨by decide, by decide, by decide, ?_⟩
  have hany : (built_edges ex1fsm ex1vocab [] 99 defaultOrder).any
      (fun t => ex1fsm.finals.contains t.2.2) = true := by decide
  rw [index_new, if_pos hany]
  simp

/-- Claim C1 as amended: a processed DFA final state `s` receives the
EOS self-loop `(s, eos) → s` if and only if it is reachable *and* the
vocabulary scan from `s` is non-empty; on the spec's scenario the built
edge map is exactly `{0: {7: 1}}`. -/
theorem spec_c1_amended :
    (∀ (fsm : FSMInfo) (vocab : List (List Char × List Nat)) (frozen : List (List Char))
        (eos : Nat) (O : IterOrder) (s : Nat),
      VocabNonempty vocab → OrderValid fsm vocab frozen O →
      ScanFunctional fsm vocab frozen → s ∈ fsm.finals →
      ((s, eos, s) ∈ built_edges fsm vocab frozen eos O ↔
        ReachState fsm vocab frozen s ∧ scanOf fsm vocab frozen s ≠ [])) ∧
    built_edges ex1fsm ex1vocab [] 99 defaultOrder = [(0, 7, 1)] := by
  refine ⟨?_, by decide⟩
  intro fsm vocab frozen eos O s Hne HO Hfun hfin
  rw [built_edges_char Hne HO Hfun]
  constructor
  · rintro ⟨hr, hentry⟩
    rcases hentry with ⟨hk, _⟩ | ⟨_, hne, _, _⟩
    · exact ⟨hr, List.ne_nil_of_mem hk⟩
    · exact ⟨hr, hne⟩
  · rintro ⟨hr, hne⟩
    exact ⟨hr, Or.inr ⟨hfin, hne, rfl, rfl⟩⟩

/-- Witness for the amended C1: in the `[a-d]+` index, the reachable
final state 1 has a non-empty scan and indeed carries the EOS
self-loop `(1, 9) → 1`. -/
theorem spec_c1_amended_witness :
    VocabNonempty ex3vocab ∧ (1, 9, 1) ∈ built_edges ex3fsm ex3vocab [] 9 defaultOrder :=
  ⟨by decide,
    (spec_c1_amended.1 ex3fsm ex3vocab [] 9 defaultOrder 1 (by decide) (by decide)
        (by decide) (by decide)).mpr
      ⟨ReachState.step ReachState.init (show ((1 : Nat), (1 : Nat)) ∈
        scanOf ex3fsm ex3vocab [] 0 by decide), by decide⟩⟩

/-- Counterexample to claim C2 (closure): in the index of the spec's
scenario 1, state 1 is the target of the edge `(0, 7) → 1` but is not
recorded in the edge map at all. -/
theorem spec_c2_counterexample :
    (0, 7, 1) ∈ built_edges ex1fsm ex1vocab [] 99 defaultOrder ∧
      ∀ b c : Nat, (1, b, c) ∉ built_edges ex1fsm ex1vocab [] 99 defaultOrder := by
  refine ⟨by decide, ?_⟩
  have hval : built_edges ex1fsm ex1vocab [] 99 defaultOrder = [(0, 7, 1)] := by decide
  intro b c hmem
  rw [hval] at hmem
  simp at hmem

/-- Claim C2 as amended: the edge map is closed up to sink states — an
edge target `c` is itself recorded whenever at least one vocabulary
token can be consumed from `c` (states with an empty scan are targets
but carry no entry). -/
theorem spec_c2_amended :
    ∀ (fsm : FSMInfo) (vocab : List (List Char × List Nat)) (frozen : List (List Char))
      (eos : Nat) (O : IterOrder),
      VocabNonempty vocab → OrderValid fsm vocab frozen O →
      ScanFunctional fsm vocab frozen →
      ∀ a b c : Nat, (a, b, c) ∈ built_edges fsm vocab frozen eos O →
        scanOf fsm vocab frozen c ≠ [] →
        ∃ b2 c2, (c, b2, c2) ∈ built_edges fsm vocab frozen eos O := by
  intro fsm vocab frozen eos O Hne HO Hfun a b c hmem hscan
  have hm := (built_edges_char Hne HO Hfun a b c).mp hmem
  have hrc : ReachState fsm vocab frozen c := by
    rcases hm.2 with ⟨hk, _⟩ | ⟨_, _, _, hcs⟩
    · exact ReachState.step hm.1 hk
    · rw [hcs]
      exact hm.1
  obtain ⟨q, hq⟩ := List.exists_mem_of_ne_nil _ hscan
  by_cases hcase : q.1 = eos ∧ c ∈ fsm.finals
  · exact ⟨eos, c, (built_edges_char Hne HO Hfun c eos c).mpr
      ⟨hrc, Or.inr ⟨hcase.2, hscan, rfl, rfl⟩⟩⟩
  · exact ⟨q.1, q.2, (built_edges_char Hne HO Hfun c q.1 q.2).mpr
      ⟨hrc, Or.inl ⟨by simpa using hq, hcase⟩⟩⟩

/-- Witness for the amended C2: the edge `(0, 1) → 1` of the `[a-d]+`
index has a target state 1 with a non-empty scan, and state 1 is
recorded. -/
theorem spec_c2_amended_witness :
    VocabNonempty ex3vocab ∧
      ∃ b2 c2, (1, b2, c2) ∈ built_edges ex3fsm ex3vocab [] 9 defaultOrder :=
  ⟨by decide,
    spec_c2_amended ex3fsm ex3vocab [] 9 defaultOrder (by decide) (by decide) (by decide)
      0 1 1 (by decide) (by decide)⟩

/-- Counterexample to claim C9 (determinism): with two vocabulary
tokens sharing token id 5 but walking to different states, two legal
`HashSet` iteration orders of the same inputs build different edge sets
— `(0, 5, 2)` is recorded under the vocabulary order but not under the
reversed order. -/
theorem spec_c9_counterexample :
    OrderValid ex9fsm ex9vocab [] defaultOrder ∧
      OrderValid ex9fsm ex9vocab [] revOrder ∧
      (0, 5, 2) ∈ built_edges ex9fsm ex9vocab [] 9 defaultOrder ∧
      (0, 5, 2) ∉ built_edges ex9fsm ex9vocab [] 9 revOrder := by
  decide

/-- Claim C9 as amended: when no token id is shared by tokens walking
to different end states (`ScanFunctional`), the built edge map is the
same set of triples under any two iteration orders. -/
theorem spec_c9_amended :
    ∀ (fsm : FSMInfo) (vocab : List (List Char × List Nat)) (frozen : List (List Char))
      (eos : Nat) (O1 O2 : IterOrder),
      VocabNonempty vocab → ScanFunctional fsm vocab frozen →
      OrderValid fsm vocab frozen O1 → OrderValid fsm vocab frozen O2 →
      ∀ a b c : Nat,
        ((a, b, c) ∈ built_edges fsm vocab frozen eos O1 ↔
          (a, b, c) ∈ built_edges fsm vocab frozen eos O2) := by
  intro fsm vocab frozen eos O1 O2 Hne Hfun HO1 HO2 a b c
  rw [built_edges_char Hne HO1 Hfun, built_edges_char Hne HO2 Hfun]

/-- Witness for the amended C9: the `[a-d]+` index (all token ids
distinct) is order-independent between the vocabulary order and the
reversed order. -/
theorem spec_c9_amended_witness :
    ScanFunctional ex3fsm ex3vocab [] ∧
      ∀ a b c : Nat,
        ((a, b, c) ∈ built_edges ex3fsm ex3vocab [] 9 defaultOrder ↔
          (a, b, c) ∈ built_edges ex3fsm ex3vocab [] 9 revOrder) :=
  ⟨by decide,
    spec_c9_amended ex3fsm ex3vocab [] 9 defaultOrder revOrder (by decide) (by decide)
      (by decide) (by decide)⟩

/-- `BTreeMap::insert` at the same key twice keeps only the second
value. -/
theorem btreeInsert_insert {α : Type} (m : List (Nat × α)) (k : Nat) (v v2 : α) :
    btreeInsert (btreeInsert m k v) k v2 = btreeInsert m k v2 := by
  unfold btreeInsert
  rw [List.filter_append]
  simp [List.filter_filter]

/-- The `CharGroup` fold only retains the mapping of the last character
of the set. -/
theorem chargroup_foldl_last (A : PAlphabet) :
    ∀ (chars : List Char), chars ≠ [] → ∀ m : List (Nat × List (Nat × Nat)),
      chars.foldl (fun mapping c => btreeInsert mapping 0 [(A.get c, 1)]) m =
        btreeInsert m 0 [(A.get (chars.getLastD 'a'), 1)] := by
  intro chars
  induction chars with
  | nil => intro h; exact absurd rfl h
  | cons c tail ih =>
    intro _ m
    cases tail with
    | nil => simp [List.foldl]
    | cons c1 rest =>
      rw [List.foldl_cons, ih (by simp), btreeInsert_insert]
      simp [List.getLastD_cons]

/-- Counterexample to claim C5: for the alphabet `{a ↦ 1, b ↦ 2}` and
the non-inverted group `{a, b}`, the produced automaton has *no*
transition on key `A.lookup('a')` from state 0 — each character's
`mapping.insert(0, …)` replaces the whole inner map, so only `'b'`
survives — contradicting the claimed edge for every `cᵢ`. -/
theorem spec_c5_counterexample :
    (chargroup_to_fsm ⟨[('a', 1), ('b', 2)]⟩ ['a', 'b']).transition 0
        ((⟨[('a', 1), ('b', 2)]⟩ : PAlphabet).get 'a') = none ∧
      (chargroup_to_fsm ⟨[('a', 1), ('b', 2)]⟩ ['a', 'b']).transition 0
        ((⟨[('a', 1), ('b', 2)]⟩ : PAlphabet).get 'b') = some 1 := by
  exact ⟨rfl, rfl⟩

/-- Claim C5 as amended: for a non-empty non-inverted `CharGroup` the
produced automaton has states {0, 1}, initial 0, finals {1}, and a
*single* transition `(0, A.lookup(c_last)) → 1` for the greatest
character of the set only. -/
theorem spec_c5_amended :
    ∀ (A : PAlphabet) (chars : List Char) (h : chars ≠ []),
      chargroup_to_fsm A chars =
        ⟨A, [0, 1], 0, [1], [(0, [(A.get (chars.getLast h), 1)])]⟩ := by
  intro A chars h
  unfold chargroup_to_fsm chargroup_to_fsm_map
  rw [chargroup_foldl_last A chars h []]
  unfold btreeInsert
  have hl : chars.getLastD 'a' = chars.getLast h := by
    rw [List.getLastD_eq_getLast?, List.getLast?_eq_getLast chars h]
    rfl
  rw [hl]
  rfl

/-- Witness for the amended C5: the group `{x, y}` over `{x ↦ 3, y ↦ 4}`
produces the transition map `{0: {4: 1}}`. -/
theorem spec_c5_amended_witness :
    (['x', 'y'] : List Char) ≠ [] ∧
      chargroup_to_fsm ⟨[('x', 3), ('y', 4)]⟩ ['x', 'y'] =
        ⟨⟨[('x', 3), ('y', 4)]⟩, [0, 1], 0, [1],
          [(0, [((PAlphabet.mk [('x', 3), ('y', 4)]).get
            ((['x', 'y'] : List Char).getLast (by decide)), 1)])]⟩ :=
  ⟨by decide, spec_c5_amended ⟨[('x', 3), ('y', 4)]⟩ ['x', 'y'] (by decide)⟩

/-- Counterexample to claim C6: a trailing regex-level `$` is silently
consumed (its `NoMatch` is swallowed by the concatenation loop), so
`parse_pattern("abc$")` *succeeds*; and `\p` does not produce a
`NoMatch` error — it hits `unimplemented!` and aborts. -/
theorem spec_c6_counterexample :
    parse_pattern "abc$".toList =
        .ok (.Alternation [.Concatenation
          [.CharGroup ['a'] false, .CharGroup ['b'] false, .CharGroup ['c'] false]]) ∧
      parse_pattern "\\p".toList = .error .abort := by
  exact ⟨rfl, rfl⟩

/-- Claim C6 as amended: anchors and named escapes are *not* uniformly
`NoMatch` errors — a `$` or `^` strictly inside the pattern does give
`NoMatch` (at the anchor's index), but a trailing `$` is silently
dropped and the parse succeeds, and `\p` panics (`unimplemented!`)
rather than returning an error. -/
theorem spec_c6_amended :
    parse_pattern "abc$".toList =
        .ok (.Alternation [.Concatenation
          [.CharGroup ['a'] false, .CharGroup ['b'] false, .CharGroup ['c'] false]]) ∧
      parse_pattern "a$b".toList = .error (.noMatch 2) ∧
      parse_pattern "^ab".toList = .error (.noMatch 1) ∧
      parse_pattern "\\p".toList = .error .abort := by
  exact ⟨rfl, rfl, rfl, rfl⟩

/-- Claim C7 is false of the code (code bug): on the repository's own
test FSM for `a b*`, both the FSM and its `everythingbut` accept the
string `"a"`, so `everythingbut` is not the complement. -/
theorem spec_c7_code_bug :
    simpleCFsm.accepts ['a'] = true ∧
      (simpleCFsm.everythingbut 10).accepts ['a'] = true := by
  decide

/-- Counterexample to claim C8: on the single subschema regex
`(true|false)`, `oneOf` emits `((?:(true|false)))` while `anyOf` emits
`((true|false))` — the strings are not identical. -/
theorem spec_c8_counterexample :
    parse_one_of_strings ["(true|false)"] = "((?:(true|false)))" ∧
      parse_any_of_strings ["(true|false)"] = "((true|false))" ∧
      parse_one_of_strings ["(true|false)"] ≠ parse_any_of_strings ["(true|false)"] := by
  exact ⟨rfl, rfl, by decide⟩

/-- Unfolding equation of `joinBar` on a two-or-more-element list. -/
theorem joinBar_cons_cons (a b : String) (t : List String) :
    joinBar (a :: b :: t) = a ++ "|" ++ joinBar (b :: t) := rfl

/-- Joining the `(?:…)`-wrapped alternatives is 4 characters longer per
alternative than joining the bare ones. -/
theorem joinBar_map_oneOfWrap_length (rs : List String) :
    (joinBar (rs.map oneOfWrap)).length = (joinBar rs).length + 4 * rs.length := by
  have e1 : ("(?:" : String).length = 3 := rfl
  have e2 : (")" : String).length = 1 := rfl
  have e3 : ("|" : String).length = 1 := rfl
  induction rs with
  | nil => rfl
  | cons r rest ih =>
    cases rest with
    | nil =>
      show (oneOfWrap r).length = r.length + 4 * 1
      unfold oneOfWrap
      simp only [String.length_append, e1, e2]
      omega
    | cons r2 rest2 =>
      rw [List.map_cons, List.map_cons, joinBar_cons_cons, joinBar_cons_cons]
      rw [List.map_cons] at ih
      unfold oneOfWrap at ih ⊢
      simp only [String.length_append, List.length_cons, e1, e2, e3] at ih ⊢
      omega

/-- Claim C8 as amended: `oneOf` is `anyOf` applied to the
`(?:…)`-wrapped alternatives; the emitted string is 4·n characters
longer than the `anyOf` string for n alternatives, so for any
non-empty alternative list the two strings are distinct. -/
theorem spec_c8_amended :
    ∀ rs : List String,
      parse_one_of_strings rs = parse_any_of_strings (rs.map oneOfWrap) ∧
      (parse_one_of_strings rs).length = (parse_any_of_strings rs).length + 4 * rs.length ∧
      (rs ≠ [] → parse_one_of_strings rs ≠ parse_any_of_strings rs) := by
  intro rs
  have hlen : (parse_one_of_strings rs).length =
      (parse_any_of_strings rs).length + 4 * rs.length := by
    unfold parse_one_of_strings parse_any_of_strings
    simp only [String.length_append, joinBar_map_oneOfWrap_length]
    omega
  refine ⟨rfl, hlen, ?_⟩
  intro hne heq
  have h2 := congrArg String.length heq
  rw [hlen] at h2
  have h3 : rs.length = 0 := by omega
  exact hne (List.eq_nil_of_length_eq_zero h3)

/-- Witness for the amended C8: with the single alternative `"a"` the
two emitted strings differ. -/
theorem spec_c8_amended_witness :
    (["a"] : List String) ≠ [] ∧ parse_one_of_strings ["a"] ≠ parse_any_of_strings ["a"] :=
  ⟨by decide, (spec_c8_amended ["a"]).2.2 (by decide)⟩

/-- A hexadecimal digit has value below 16. -/
theorem hexVal_lt_16 {c : Char} (h : isHexDigitChar c = true) : hexVal c < 16 := by
  unfold isHexDigitChar at h
  simp only [Bool.or_eq_true, Bool.and_eq_true, decide_eq_true_eq] at h
  unfold hexVal
  rcases h with (⟨h1, h2⟩ | ⟨h1, h2⟩) | ⟨h1, h2⟩ <;> split_ifs <;> omega

/-- Counterexample to claim C10: the token `<0x+6>` has the non-hex
middle character `'+'`, yet processing returns `Ok([6])` instead of
`ByteFallbackProcessorFailed`, because `u8::from_str_radix` accepts a
leading `'+'`. -/
theorem spec_c10_counterexample :
    process_byte_fallback Mods.default ['<', '0', 'x', '+', '6', '>'] = .ok [6] ∧
      isHexDigitChar '+' = false := by
  exact ⟨rfl, by decide⟩

/-- Claim C10 as amended: a token of the byte form `<0x__>` (byte
length 6, single-byte middle characters) parses as one byte when both
middle characters are hex, *or* when they are a leading `'+'` followed
by one hex digit; only otherwise does it fail with
`ByteFallbackProcessorFailed`.  Any token failing the guard — longer,
shorter, or merely containing `<0xHH>` as a prefix like `<0x61>a` — is
processed as plain text: space-substitute replaced, then UTF-8 bytes. -/
theorem spec_c10_amended :
    (∀ (m : Mods) (c1 c2 : Char),
        (encodeCharBytes c1).length = 1 → (encodeCharBytes c2).length = 1 →
        process_byte_fallback m ['<', '0', 'x', c1, c2, '>'] =
          (if isHexDigitChar c1 ∧ isHexDigitChar c2 then
            .ok [16 * hexVal c1 + hexVal c2]
          else if c1 = '+' ∧ isHexDigitChar c2 then .ok [hexVal c2]
          else .error .byteFallbackProcessorFailed)) ∧
    (∀ (m : Mods) (token : List Char),
        ¬(rustLen token = 6 ∧ ['<', '0', 'x'].isPrefixOf token ∧
            token.getLast? = some '>') →
        process_byte_fallback m token = .ok (utf8Bytes (m.apply_default token))) ∧
    process_byte_fallback Mods.default ['<', '0', 'x', '6', '1', '>', 'a'] =
      .ok [60, 48, 120, 54, 49, 62, 97] := by
  refine ⟨?_, ?_, rfl⟩
  · intro m c1 c2 h1 h2
    have e1 : (encodeCharBytes '<').length = 1 := rfl
    have e2 : (encodeCharBytes '0').length = 1 := rfl
    have e3 : (encodeCharBytes 'x').length = 1 := rfl
    have e4 : (encodeCharBytes '>').length = 1 := rfl
    have hlen : rustLen ['<', '0', 'x', c1, c2, '>'] = 6 := by
      simp [rustLen, h1, h2, e1, e2, e3, e4]
    have hpre : (['<', '0', 'x'] : List Char).isPrefixOf ['<', '0', 'x', c1, c2, '>'] = true := rfl
    have hs : sliceBytes ['<', '0', 'x', c1, c2, '>'] 3 5 = some [c1, c2] := by
      simp [sliceBytes, sliceDrop, sliceTake, h1, h2, e1, e2, e3, e4]
    unfold process_byte_fallback
    rw [if_pos ⟨hlen, hpre, rfl⟩, hs]
    dsimp only
    by_cases hA : isHexDigitChar c1 = true ∧ isHexDigitChar c2 = true
    · have hplus : ¬c1 = '+' := by
        intro he
        rw [he] at hA
        exact absurd hA.1 (by decide)
      have hu : u8_from_str_radix16 [c1, c2] = some (16 * hexVal c1 + hexVal c2) := by
        unfold u8_from_str_radix16
        simp only [List.head?, List.tail, Option.some.injEq]
        rw [if_neg hplus]
        rw [if_neg (show ¬([c1, c2] : List Char) = [] from by simp)]
        simp only [List.foldl, Option.some_bind]
        rw [if_pos hA.1]
        simp only [Option.some_bind]
        rw [if_pos hA.2]
        simp only [Option.some_bind]
        have hb1 := hexVal_lt_16 hA.1
        have hb2 := hexVal_lt_16 hA.2
        rw [if_pos (show 16 * (16 * 0 + hexVal c1) + hexVal c2 < 256 by omega)]
        norm_num
      rw [hu]
      dsimp only
      rw [if_pos hA]
    · by_cases hplus : c1 = '+'
      · subst hplus
        by_cases hB : isHexDigitChar c2 = true
        · have hu : u8_from_str_radix16 ['+', c2] = some (hexVal c2) := by
            unfold u8_from_str_radix16
            simp only [List.head?, List.tail, Option.some.injEq]
            simp only [if_true]
            rw [if_neg (show ¬([c2] : List Char) = [] from by simp)]
            simp only [List.foldl, Option.some_bind]
            rw [if_pos hB]
            simp only [Option.some_bind]
            have hb2 := hexVal_lt_16 hB
            rw [if_pos (show 16 * 0 + hexVal c2 < 256 by omega)]
            norm_num
          rw [hu]
          dsimp only
          rw [if_neg hA, if_pos ⟨rfl, hB⟩]
        · have hu : u8_from_str_radix16 ['+', c2] = none := by
            unfold u8_from_str_radix16
            simp only [List.head?, List.tail, Option.some.injEq]
            simp only [if_true]
            rw [if_neg (show ¬([c2] : List Char) = [] from by simp)]
            simp only [List.foldl, Option.some_bind]
            rw [if_neg hB]
            rfl
          rw [hu]
          dsimp only
          rw [if_neg hA, if_neg (fun hx => hB hx.2)]
      · have hu : u8_from_str_radix16 [c1, c2] = none := by
          unfold u8_from_str_radix16
          simp only [List.head?, List.tail, Option.some.injEq]
          rw [if_neg hplus]
          rw [if_neg (show ¬([c1, c2] : List Char) = [] from by simp)]
          simp only [List.foldl, Option.some_bind]
          by_cases hx1 : isHexDigitChar c1 = true
          · rw [if_pos hx1]
            simp only [Option.some_bind]
            have hx2 : ¬isHexDigitChar c2 = true := fun hx => hA ⟨hx1, hx⟩
            rw [if_neg hx2]
            rfl
          · rw [if_neg hx1]
            rfl
        rw [hu]
        dsimp only
        rw [if_neg hA, if_neg (fun hx => hplus hx.1)]
  · intro m token hng
    unfold process_byte_fallback
    rw [if_neg hng]

/-- Witness for the amended C10: the token `<0x61>` with hex middle
characters parses as the byte it denotes. -/
theorem spec_c10_amended_witness :
    (encodeCharBytes '6').length = 1 ∧ (encodeCharBytes '1').length = 1 ∧
      process_byte_fallback Mods.default ['<', '0', 'x', '6', '1', '>'] =
        (if isHexDigitChar '6' ∧ isHexDigitChar '1' then
          Except.ok [16 * hexVal '6' + hexVal '1']
        else if '6' = '+' ∧ isHexDigitChar '1' then Except.ok [hexVal '1']
        else Except.error TPErr.byteFallbackProcessorFailed) :=
  ⟨by decide, by decide,
    spec_c10_amended.1 Mods.default '6' '1' (by decide) (by decide)⟩
